import Mathlib

/-!
# navigation_pkg: the A* global planner (`src/AStar.cpp`)

A shallow embedding of `AStar::FindPath`, `AStar::RetracePath`,
`AStar::GetDistance`, `AStar::Contain` and `AStar::GlobalPlanCallback`.

* `double` values are rationals with exact `+`, `-`, `*`; the libm functions
  (`sqrt`, `atan2`, `cos`, `sin`) are parameters collected in `Libm`.
* A `Node*` is an index `Fin n` into the grid's cells; a null pointer is `none`.
* The `Grid` class is not part of the translated source; its read-only part
  (`walkable`, `worldPosition`, `gridX`, `gridY`, `NodeFromWorldPoint`,
  `NodeFromIndex`, `GetNeighbours`) is a parameter, the scratch fields written by
  the search (`gCost`, `hCost`, `parentX`, `parentY`) are the state `Fin n → Scratch`.
* Undefined behaviour (null dereference, reading a vector past its end) and
  non-termination are explicit `Fault`s.
-/

namespace NavigationPkg

/-- World coordinates (`Vector3`, and the `position` of a `geometry_msgs::Pose`;
the orientation of a pose is never written by the planner and is left out). -/
structure Vector3 where
  x : ℚ
  y : ℚ
  z : ℚ
deriving DecidableEq

/-- The libm functions called by the planner. -/
structure Libm where
  sqrt : ℚ → ℚ
  atan2 : ℚ → ℚ → ℚ
  cos : ℚ → ℚ
  sin : ℚ → ℚ

/-- The part of `Grid` and of its `Node`s that the planner only reads. -/
structure Grid (n : Nat) where
  walkable : Fin n → Bool
  worldPosition : Fin n → Vector3
  gridX : Fin n → Int
  gridY : Fin n → Int
  NodeFromWorldPoint : Vector3 → Option (Fin n)
  NodeFromIndex : Int → Int → Option (Fin n)
  GetNeighbours : Fin n → List (Fin n)

/-- The fields of a `Node` that the search writes. -/
structure Scratch where
  gCost : ℚ
  hCost : ℚ
  parentX : Int
  parentY : Int
deriving DecidableEq

/-- Ways in which the C++ code leaves defined behaviour. -/
inductive Fault where
  | nullDereference
  | indexOutOfRange
  | nonTermination
deriving DecidableEq

deriving instance DecidableEq for Except

/-- `Node::fCost()`. -/
def fCost (s : Scratch) : ℚ := s.gCost + s.hCost

/-- `AStar::GetDistance` (lines 230-233). -/
def GetDistance {n : Nat} (lm : Libm) (g : Grid n) (nodeA nodeB : Fin n) : ℚ :=
  lm.sqrt (((g.worldPosition nodeA).x - (g.worldPosition nodeB).x) ^ 2
    + ((g.worldPosition nodeA).y - (g.worldPosition nodeB).y) ^ 2
    + ((g.worldPosition nodeA).z - (g.worldPosition nodeB).z) ^ 2)

/-- `AStar::Contain` (lines 235-244). -/
def Contain {n : Nat} : List (Fin n) → Fin n → Bool
  | [], _ => false
  | it :: rest, node => if node = it then true else Contain rest node

/-- The state of the `while` loop of `FindPath`. -/
structure SearchState (n : Nat) where
  openSet : List (Fin n)
  closedSet : List (Fin n)
  nodes : Fin n → Scratch

/-- One step of the selection scan (lines 60-66). -/
def selectStep {n : Nat} (nodes : Fin n → Scratch) (node it : Fin n) : Fin n :=
  if fCost (nodes it) < fCost (nodes node) ∨ fCost (nodes it) = fCost (nodes node) then
    if (nodes it).hCost < (nodes node).hCost then it else node
  else node

/-- The selection scan (lines 52-67): `node` starts as `openSet[0]`. -/
def selectNode {n : Nat} (nodes : Fin n → Scratch) (first : Fin n) (openSet : List (Fin n)) :
    Fin n :=
  openSet.foldl (selectStep nodes) first

/-- The body of the neighbour loop (lines 105-120) on the pair `(openSet, nodes)`. -/
def relax {n : Nat} (lm : Libm) (g : Grid n) (targetnode node : Fin n)
    (closedSet : List (Fin n)) (st : List (Fin n) × (Fin n → Scratch)) (it : Fin n) :
    List (Fin n) × (Fin n → Scratch) :=
  if (!g.walkable it || Contain closedSet it) = true then st
  else
    let newCostToNeighbour := (st.2 node).gCost + GetDistance lm g node it
    if newCostToNeighbour < (st.2 it).gCost ∨ Contain st.1 it = false then
      (if Contain st.1 it = false then st.1 ++ [it] else st.1,
        Function.update st.2 it
          { gCost := newCostToNeighbour
            hCost := GetDistance lm g it targetnode
            parentX := g.gridX node
            parentY := g.gridY node })
    else st

/-- The neighbour loop (lines 100-122). -/
def expand {n : Nat} (lm : Libm) (g : Grid n) (targetnode node : Fin n)
    (closedSet : List (Fin n)) (st : List (Fin n) × (Fin n → Scratch)) :
    List (Fin n) × (Fin n → Scratch) :=
  (g.GetNeighbours node).foldl (relax lm g targetnode node closedSet) st

/-- What one pass through the body of the `while` loop does. -/
inductive Step (n : Nat) where
  | emptied (s : SearchState n)
  | reached (s : SearchState n)
  | next (s : SearchState n)

/-- One iteration of the `while` loop (lines 49-124), up to the call of `RetracePath`. -/
def iteration {n : Nat} (lm : Libm) (g : Grid n) (targetnode : Fin n) (s : SearchState n) :
    Step n :=
  match s.openSet with
  | [] => Step.emptied s
  | first :: _ =>
    let node := selectNode s.nodes first s.openSet
    let openSet := s.openSet.erase node
    let closedSet := s.closedSet ++ [node]
    if node = targetnode then Step.reached ⟨openSet, closedSet, s.nodes⟩
    else
      let st := expand lm g targetnode node closedSet (openSet, s.nodes)
      Step.next ⟨st.1, closedSet, st.2⟩

/-- The `while` loop of `FindPath` with a bound on the number of loop tests. -/
def searchLoop {n : Nat} (lm : Libm) (g : Grid n) (targetnode : Fin n) :
    Nat → SearchState n → Except Fault (Bool × SearchState n)
  | 0, _ => Except.error Fault.nonTermination
  | fuel + 1, s =>
    match iteration lm g targetnode s with
    | Step.emptied s1 => Except.ok (false, s1)
    | Step.reached s1 => Except.ok (true, s1)
    | Step.next s1 => searchLoop lm g targetnode fuel s1

/-- The state in which the loop is entered (lines 42-45). -/
def initState {n : Nat} (nodes : Fin n → Scratch) (startNode : Fin n) : SearchState n :=
  ⟨[startNode], [], nodes⟩

/-- The state at the head of the `k`-th loop test, if the loop gets there. -/
def loopState {n : Nat} (lm : Libm) (g : Grid n) (targetnode : Fin n) (s0 : SearchState n) :
    Nat → Option (SearchState n)
  | 0 => some s0
  | k + 1 =>
    match loopState lm g targetnode s0 k with
    | none => none
    | some s =>
      match iteration lm g targetnode s with
      | Step.next s1 => some s1
      | _ => none

/-- The backward walk of `RetracePath` (lines 134-141), with a bound on the
number of loop tests. -/
def retraceWalk {n : Nat} (g : Grid n) (nodes : Fin n → Scratch) (startNode : Fin n) :
    Nat → Fin n → List Vector3 → Except Fault (List Vector3)
  | 0, _, _ => Except.error Fault.nonTermination
  | fuel + 1, currentNode, path =>
    if currentNode = startNode then Except.ok path
    else
      match g.NodeFromIndex (nodes currentNode).parentX (nodes currentNode).parentY with
      | none => Except.error Fault.nullDereference
      | some parent =>
        retraceWalk g nodes startNode fuel parent (path ++ [g.worldPosition currentNode])

/-- Lines 134-144: the walk followed by `std::reverse`; the value assigned to `grid.path`.
The walk gets `n + 1` loop tests: a walk over `n` cells that has not met the start cell by
then has revisited a cell and never ends. -/
def reconstruct {n : Nat} (g : Grid n) (nodes : Fin n → Scratch) (startNode endNode : Fin n) :
    Except Fault (List Vector3) :=
  (retraceWalk g nodes startNode (n + 1) endNode []).map List.reverse

/-- The loop variables of both reductions: the output vector, `old2`, `old1`. -/
structure Reduction where
  pose : List Vector3
  old2 : Vector3
  old1 : Vector3
deriving DecidableEq

/-- Body of the first reduction loop (lines 164-171). -/
def firstStep (lm : Libm) (st : Reduction) (curr : Vector3) : Reduction :=
  { pose :=
      (if lm.atan2 (st.old1.y - st.old2.y) (st.old1.x - st.old2.x)
          = lm.atan2 (curr.y - st.old1.y) (curr.x - st.old1.x)
        then st.pose.dropLast else st.pose) ++ [curr]
    old2 := st.old1
    old1 := curr }

/-- The first reduction (lines 155-172). Reading `path[0]` or `path[1]` of a
shorter vector is undefined. -/
def firstReduction (lm : Libm) (path : List Vector3) : Except Fault Reduction :=
  match path with
  | p0 :: p1 :: rest => Except.ok (rest.foldl (firstStep lm) ⟨[p0, p1], p0, p1⟩)
  | _ => Except.error Fault.indexOutOfRange

/-- The collision loop (lines 193-205) with a bound on the number of loop tests:
`collision` is the result. -/
def collisionLoop {n : Nat} (lm : Libm) (g : Grid n) (old2 : Vector3) (theta l_max inc : ℚ) :
    Nat → ℚ → Except Fault Bool
  | 0, _ => Except.error Fault.nonTermination
  | fuel + 1, l =>
    if l < l_max then
      match g.NodeFromWorldPoint
          ⟨old2.x + l * lm.cos theta, old2.y + l * lm.sin theta, 0⟩ with
      | none => Except.error Fault.nullDereference
      | some nd =>
        if g.walkable nd = false then Except.ok true
        else collisionLoop lm g old2 theta l_max inc fuel (l + inc)
    else Except.ok false

/-- Lines 189-205: does the march from `old2` towards `curr` hit an unwalkable cell? -/
def collides {n : Nat} (lm : Libm) (g : Grid n) (old2 curr : Vector3) : Except Fault Bool :=
  let theta := lm.atan2 (curr.y - old2.y) (curr.x - old2.x)
  let l_max := lm.sqrt ((curr.x - old2.x) ^ 2 + (curr.y - old2.y) ^ 2)
  let inc : ℚ := 2 / 100
  collisionLoop lm g old2 theta l_max inc (⌈l_max / inc⌉₊ + 1) 0

/-- Body of the second reduction loop (lines 188-212). -/
def secondStep {n : Nat} (lm : Libm) (g : Grid n) (st : Reduction) (curr : Vector3) :
    Except Fault Reduction :=
  match collides lm g st.old2 curr with
  | Except.error e => Except.error e
  | Except.ok collision =>
    Except.ok
      { pose := (if collision = false then st.pose.dropLast else st.pose) ++ [curr]
        old2 := st.old1
        old1 := curr }

/-- The second reduction loop over `pose.begin()+2 .. pose.end()`. -/
def secondLoop {n : Nat} (lm : Libm) (g : Grid n) : List Vector3 → Reduction →
    Except Fault Reduction
  | [], st => Except.ok st
  | curr :: rest, st =>
    match secondStep lm g st curr with
    | Except.error e => Except.error e
    | Except.ok st1 => secondLoop lm g rest st1

/-- The second reduction (lines 180-213), started from the variables the first
reduction leaves behind. Line 181 writes all of `old2` from `pose[0]`; line 183
writes `old1.x`, `old2.y` and `old2.z` from `pose[1]`, so `old1.y`, `old1.z` keep
the values they had at the end of the first reduction. -/
def secondReduction {n : Nat} (lm : Libm) (g : Grid n) (first : Reduction) :
    Except Fault (List Vector3) :=
  match first.pose with
  | q0 :: q1 :: rest =>
    let pushed0 : Vector3 := ⟨q0.x, q0.y, q0.z⟩
    let old1 : Vector3 := ⟨q1.x, first.old1.y, first.old1.z⟩
    let old2 : Vector3 := ⟨q0.x, q1.y, q1.z⟩
    (secondLoop lm g rest ⟨[pushed0, old1], old2, old1⟩).map Reduction.pose
  | _ => Except.error Fault.indexOutOfRange

/-- Both reductions in sequence (lines 155-213): `simplified_pose`. -/
def simplify {n : Nat} (lm : Libm) (g : Grid n) (path : List Vector3) :
    Except Fault (List Vector3) :=
  match firstReduction lm path with
  | Except.error e => Except.error e
  | Except.ok first => secondReduction lm g first

/-- What `RetracePath` leaves behind: `grid.path` and the request sent to the local planner. -/
structure Retraced where
  gridPath : List Vector3
  msgPose : List Vector3
deriving DecidableEq

/-- `AStar::RetracePath` (lines 129-228). -/
def RetracePath {n : Nat} (lm : Libm) (g : Grid n) (nodes : Fin n → Scratch)
    (startNode endNode : Fin n) : Except Fault Retraced :=
  match reconstruct g nodes startNode endNode with
  | Except.error e => Except.error e
  | Except.ok path =>
    match simplify lm g path with
    | Except.error e => Except.error e
    | Except.ok simplified_pose => Except.ok ⟨path, simplified_pose⟩

/-- The planner's mutable state: the nodes' scratch fields and `grid.path`. -/
structure Planner (n : Nat) where
  nodes : Fin n → Scratch
  path : List Vector3

/-- Result of `FindPath`: the returned flag, the planner afterwards, and the
waypoints sent to the local planner, if any were. -/
structure Found (n : Nat) where
  success : Bool
  planner : Planner n
  sent : Option (List Vector3)

/-- `AStar::FindPath` (lines 32-127). A null `startNode` or `targetnode` is dereferenced
by the logging at lines 39-40. The loop gets `n + 1` loop tests, which is enough on every
grid of `n` cells (`searchLoop_spec`). -/
def FindPath {n : Nat} (lm : Libm) (g : Grid n) (pl : Planner n) (startPos targetPos : Vector3) :
    Except Fault (Found n) :=
  match g.NodeFromWorldPoint startPos, g.NodeFromWorldPoint targetPos with
  | some startNode, some targetnode =>
    match searchLoop lm g targetnode (n + 1) (initState pl.nodes startNode) with
    | Except.error e => Except.error e
    | Except.ok (false, s) => Except.ok ⟨false, ⟨s.nodes, pl.path⟩, none⟩
    | Except.ok (true, s) =>
      match RetracePath lm g s.nodes startNode targetnode with
      | Except.error e => Except.error e
      | Except.ok r => Except.ok ⟨true, ⟨s.nodes, r.gridPath⟩, some r.msgPose⟩
  | _, _ => Except.error Fault.nullDereference

/-- The service response (`resp.success`, `resp.path`). -/
structure Response where
  success : Bool
  path : List Vector3
deriving DecidableEq

/-- `AStar::GlobalPlanCallback` (lines 23-30): the response and the planner afterwards. -/
def GlobalPlanCallback {n : Nat} (lm : Libm) (g : Grid n) (pl : Planner n)
    (currentPos targetPos : Vector3) : Except Fault (Response × Found n) :=
  match FindPath lm g pl currentPos targetPos with
  | Except.error e => Except.error e
  | Except.ok r => Except.ok (⟨r.success, r.planner.path⟩, r)

/-! ## Notions used to state the properties -/

/-- A step the search may take: `d` is reported by `GetNeighbours c` and is walkable. -/
def WalkStep {n : Nat} (g : Grid n) (c d : Fin n) : Prop :=
  d ∈ g.GetNeighbours c ∧ g.walkable d = true

instance {n : Nat} (g : Grid n) (c d : Fin n) : Decidable (WalkStep g c d) := by
  unfold WalkStep
  infer_instance

/-- The goal is the start, or a chain of walkable neighbour steps leads from the start to it. -/
def Reachable {n : Nat} (g : Grid n) (startNode targetnode : Fin n) : Prop :=
  Relation.ReflTransGen (WalkStep g) startNode targetnode

/-- The cells of a list are linked by walkable neighbour steps. -/
def isWalkChain {n : Nat} (g : Grid n) : List (Fin n) → Bool
  | [] => true
  | [_] => true
  | c :: d :: rest => decide (WalkStep g c d) && isWalkChain g (d :: rest)

/-- Sum of the distances between consecutive cells of a list. -/
def chainCost {n : Nat} (lm : Libm) (g : Grid n) : List (Fin n) → ℚ
  | [] => 0
  | [_] => 0
  | c :: d :: rest => GetDistance lm g c d + chainCost lm g (d :: rest)

/-- The bearing that the real `atan2` gives to `(0, 0)` is that of `(1, 0)`. -/
def bearingVector (y x : ℚ) : ℚ × ℚ :=
  if x = 0 ∧ y = 0 then (1, 0) else (x, y)

/-- Two vectors have the same real `atan2`: they point the same way. -/
def SameBearing (y x y1 x1 : ℚ) : Prop :=
  (bearingVector y x).1 * (bearingVector y1 x1).2 = (bearingVector y x).2 * (bearingVector y1 x1).1
    ∧ 0 < (bearingVector y x).1 * (bearingVector y1 x1).1
        + (bearingVector y x).2 * (bearingVector y1 x1).2

/-- The `atan2` of `lm` compares bearings exactly. -/
def BearingExact (lm : Libm) : Prop :=
  ∀ y x y1 x1 : ℚ, lm.atan2 y x = lm.atan2 y1 x1 ↔ SameBearing y x y1 x1

/-- The bearing from `a` to `b` as the first reduction computes it (line 165). -/
def bearing (lm : Libm) (a b : Vector3) : ℚ :=
  lm.atan2 (b.y - a.y) (b.x - a.x)

/-- What the first reduction loop leaves in `pose` from its last element on, when it
continues with `old2`, `old1` and the points still to be read. -/
def keptFrom (lm : Libm) (old2 old1 : Vector3) : List Vector3 → List Vector3
  | [] => [old1]
  | curr :: rest =>
    if bearing lm old2 old1 = bearing lm old1 curr then keptFrom lm old1 curr rest
    else old1 :: keptFrom lm old1 curr rest

/-- The cell the selection scan (lines 52-67) picks in a loop state with a non-empty open set. -/
def selected {n : Nat} (s : SearchState n) : Option (Fin n) :=
  match s.openSet with
  | [] => none
  | first :: _ => some (selectNode s.nodes first s.openSet)

/-- The part of a `FindPath` result that can be compared: flag, `grid.path`, waypoints sent. -/
def observe {n : Nat} (r : Except Fault (Found n)) :
    Except Fault (Bool × List Vector3 × Option (List Vector3)) :=
  r.map (fun f => (f.success, f.planner.path, f.sent))

/-- What the search loop keeps true of its state: the two sets hold no cell twice and
share none, hold only cells reachable from the start, hold the start, every walkable
neighbour of a closed cell is in one of them, and the goal is not closed. -/
structure SearchInv {n : Nat} (g : Grid n) (startNode targetnode : Fin n)
    (s : SearchState n) : Prop where
  nodupOpen : s.openSet.Nodup
  nodupClosed : s.closedSet.Nodup
  disjoint : ∀ c, c ∈ s.openSet → c ∉ s.closedSet
  reach : ∀ c, c ∈ s.openSet ∨ c ∈ s.closedSet → Reachable g startNode c
  startIn : startNode ∈ s.openSet ∨ startNode ∈ s.closedSet
  closedUnder : ∀ c, c ∈ s.closedSet → ∀ d, WalkStep g c d → d ∈ s.openSet ∨ d ∈ s.closedSet
  targetOut : targetnode ∉ s.closedSet

/-! ## A concrete libm and a concrete grid -/

/-- Integer square root by Newton iteration from above, at most `fuel` steps. -/
def isqrtAux : Nat → Nat → Nat → Nat
  | 0, _, x => x
  | fuel + 1, m, x => if (x + m / x) / 2 < x then isqrtAux fuel m ((x + m / x) / 2) else x

/-- The largest `r` with `r * r ≤ m`. -/
def isqrt (m : Nat) : Nat := if m = 0 then 0 else isqrtAux m m m

/-- Square root rounded down to a multiple of `1 / (den * 10^6)`; exact on squares of rationals. -/
def sqrtQ (q : ℚ) : ℚ :=
  if q ≤ 0 then 0 else (isqrt (q.num.toNat * q.den * 10 ^ 12) : ℚ) / ((q.den : ℚ) * 10 ^ 6)

/-- The bearing of `(x, y)` as a number in `(-2, 2]` that grows with the angle (`0` east,
`1` north, `2` west, `-1` south): equal values exactly for equal angles. -/
def atan2Q (y x : ℚ) : ℚ :=
  if x = 0 ∧ y = 0 then 0
  else if 0 ≤ y then (if 0 ≤ x then y / (|x| + |y|) else 1 + |x| / (|x| + |y|))
  else (if 0 ≤ x then -(|y| / (|x| + |y|)) else -(1 + |x| / (|x| + |y|)))

/-- The direction `(x, y)` with `|x| + |y| = 1` whose bearing is `t`. -/
def dirQ (t : ℚ) : ℚ × ℚ :=
  if 0 ≤ t then (if t ≤ 1 then (1 - t, t) else (1 - t, 2 - t))
  else (if -1 ≤ t then (1 + t, t) else (1 + t, -(2 + t)))

/-- Cosine of a bearing produced by `atan2Q`. -/
def cosQ (t : ℚ) : ℚ := (dirQ t).1 / sqrtQ ((dirQ t).1 ^ 2 + (dirQ t).2 ^ 2)

/-- Sine of a bearing produced by `atan2Q`. -/
def sinQ (t : ℚ) : ℚ := (dirQ t).2 / sqrtQ ((dirQ t).1 ^ 2 + (dirQ t).2 ^ 2)

/-- A libm with exact bearings and square roots rounded down at the sixth decimal. -/
def libmQ : Libm := ⟨sqrtQ, atan2Q, cosQ, sinQ⟩

/-- The cell with indices `(x, y)` of a lattice of `w` columns and `h` rows, if there is one. -/
def latticeIndex (w h : Nat) (x y : Int) : Option (Fin (w * h)) :=
  if 0 ≤ x ∧ x < w ∧ 0 ≤ y ∧ y < h then
    (if hk : x.toNat * h + y.toNat < w * h then some ⟨x.toNat * h + y.toNat, hk⟩ else none)
  else none

/-- A lattice of unit cells centred at the integer points `(x, y, 0)`, `0 ≤ x < w`,
`0 ≤ y < h`; the cells listed in `cells` are walkable, each cell has its up to eight
neighbours, and a world point resolves to the nearest cell of the lattice. -/
def lattice (w h : Nat) (cells : List (Int × Int)) : Grid (w * h) where
  walkable c := decide ((((c.val / h : Nat) : Int), ((c.val % h : Nat) : Int)) ∈ cells)
  worldPosition c := ⟨((c.val / h : Nat) : ℚ), ((c.val % h : Nat) : ℚ), 0⟩
  gridX c := ((c.val / h : Nat) : Int)
  gridY c := ((c.val % h : Nat) : Int)
  NodeFromWorldPoint p :=
    latticeIndex w h (max 0 (min ((w : Int) - 1) ⌊p.x + 1 / 2⌋))
      (max 0 (min ((h : Int) - 1) ⌊p.y + 1 / 2⌋))
  NodeFromIndex x y := latticeIndex w h x y
  GetNeighbours c :=
    ([(-1, -1), (-1, 0), (-1, 1), (0, -1), (0, 1), (1, -1), (1, 0), (1, 1)] :
        List (Int × Int)).filterMap
      (fun d => latticeIndex w h (((c.val / h : Nat) : Int) + d.1)
        (((c.val % h : Nat) : Int) + d.2))

/-- Scratch fields as the `Node` constructor leaves them. -/
def scratch0 (n : Nat) : Fin n → Scratch := fun _ => ⟨0, 0, 0, 0⟩

/-- Three walkable cells in a row: `(0,0)`, `(1,0)`, `(2,0)`. -/
def grid31 : Grid (3 * 1) := lattice 3 1 [(0, 0), (1, 0), (2, 0)]

/-- Four walkable cells in a row: `(0,0)`, `(1,0)`, `(2,0)`, `(3,0)`. -/
def grid41 : Grid (4 * 1) := lattice 4 1 [(0, 0), (1, 0), (2, 0), (3, 0)]

/-- A lattice of 5 columns and 4 rows (`.` walkable, `#` not), row `y = 3` on top:
```
##...
##.#.
#.##.
....#
```
-/
def grid54 : Grid (5 * 4) :=
  lattice 5 4 [(2, 3), (3, 3), (4, 3), (2, 2), (4, 2), (1, 1), (4, 1),
    (0, 0), (1, 0), (2, 0), (3, 0)]

/-- The cell `(x, y)` of `grid54`. -/
def cell54 (x : Fin 5) (y : Fin 4) : Fin (5 * 4) :=
  ⟨x.val * 4 + y.val, by omega⟩

/-- One step of Pass 1 as the design text words it, on the retained sequence: compare
the bearing from the second-to-last retained point to the last retained point with the
bearing from the last retained point to the new point; when they are equal drop the last
retained point; then append the new point. -/
def specFirstStep (lm : Libm) (retained : List Vector3) (curr : Vector3) : List Vector3 :=
  match retained.reverse with
  | last :: secondToLast :: _ =>
    if bearing lm secondToLast last = bearing lm last curr then retained.dropLast ++ [curr]
    else retained ++ [curr]
  | _ => retained ++ [curr]

/-- Pass 1 as the design text words it: the first two points are retained, every further
point is taken in by `specFirstStep`; fewer than 2 points are too short to simplify. -/
def specFirstReduction (lm : Libm) (path : List Vector3) : Option (List Vector3) :=
  match path with
  | p0 :: p1 :: rest => some (rest.foldl (specFirstStep lm) [p0, p1])
  | _ => none

/-- Does an iteration go on to the next loop test? -/
def Step.isNext {n : Nat} : Step n → Bool
  | Step.next _ => true
  | _ => false

/-- The scratch fields of `c` are those written by the neighbour loop of `p`: the parent
indices of `c` are the indices of `p`, `c` is a walkable neighbour of `p`, and the `gCost`
of `c` is that of `p` plus their distance. -/
def Link {n : Nat} (lm : Libm) (g : Grid n) (nodes : Fin n → Scratch) (p c : Fin n) : Prop :=
  (nodes c).parentX = g.gridX p ∧ (nodes c).parentY = g.gridY p ∧ WalkStep g p c
    ∧ (nodes c).gCost = (nodes p).gCost + GetDistance lm g p c

/-- What the search loop keeps true of the parent fields: the start cell is closed first
and its scratch fields are never written; every other open cell is linked to a closed
cell; every other closed cell is linked to a cell that was closed before it. -/
structure ParentInv {n : Nat} (lm : Libm) (g : Grid n) (startNode : Fin n)
    (nodes0 : Fin n → Scratch) (s : SearchState n) : Prop where
  startState : startNode ∈ s.closedSet ∨ (s.openSet = [startNode] ∧ s.closedSet = [])
  startScratch : s.nodes startNode = nodes0 startNode
  openParent : ∀ c, c ∈ s.openSet → c ≠ startNode →
    ∃ p, p ∈ s.closedSet ∧ Link lm g s.nodes p c
  closedParent : ∀ l1 c l2, s.closedSet = l1 ++ c :: l2 → c ≠ startNode →
    ∃ p, p ∈ l1 ∧ Link lm g s.nodes p c

/-- The grid finds every cell again under its own indices. -/
def IndexConsistent {n : Nat} (g : Grid n) : Prop :=
  ∀ c : Fin n, g.NodeFromIndex (g.gridX c) (g.gridY c) = some c

/-- The scratch fields left on `grid31` by a first search from `(0,0)` to `(2,0)`. -/
def stale31 : Fin (3 * 1) → Scratch :=
  match searchLoop libmQ grid31 2 (3 * 1 + 1) (initState (scratch0 _) 0) with
  | Except.ok (_, s) => s.nodes
  | Except.error _ => scratch0 _

/-- Two states of the loop, reached on the same grid from scratch fields that differed
before the call: the sets are equal, on their cells the `gCost`s differ by the constant
`delta`, and on their cells other than the start `hCost` and parent indices are equal. -/
structure Sim {n : Nat} (startNode : Fin n) (delta : ℚ) (s1 s2 : SearchState n) : Prop where
  openEq : s2.openSet = s1.openSet
  closedEq : s2.closedSet = s1.closedSet
  gShift : ∀ c, (c ∈ s1.openSet ∨ c ∈ s1.closedSet) →
    (s2.nodes c).gCost = (s1.nodes c).gCost + delta
  others : ∀ c, (c ∈ s1.openSet ∨ c ∈ s1.closedSet) → c ≠ startNode →
    (s2.nodes c).hCost = (s1.nodes c).hCost ∧ (s2.nodes c).parentX = (s1.nodes c).parentX
      ∧ (s2.nodes c).parentY = (s1.nodes c).parentY

/-! ## The search loop -/

theorem Contain_iff {n : Nat} (vect : List (Fin n)) (node : Fin n) :
    Contain vect node = true ↔ node ∈ vect := by
  induction vect with
  | nil => simp [Contain]
  | cons it rest ih =>
    by_cases h : node = it
    · simp [Contain, h]
    · simp [Contain, h, ih]

theorem Contain_eq_false_iff {n : Nat} (vect : List (Fin n)) (node : Fin n) :
    Contain vect node = false ↔ node ∉ vect := by
  rw [← Contain_iff, Bool.not_eq_true]

theorem selectStep_eq {n : Nat} (nodes : Fin n → Scratch) (node it : Fin n) :
    selectStep nodes node it = node ∨ selectStep nodes node it = it := by
  unfold selectStep
  split_ifs <;> simp

theorem selectNode_mem {n : Nat} (nodes : Fin n → Scratch) (openSet : List (Fin n))
    (first : Fin n) :
    selectNode nodes first openSet = first ∨ selectNode nodes first openSet ∈ openSet := by
  induction openSet generalizing first with
  | nil => simp [selectNode]
  | cons it rest ih =>
    have h := ih (selectStep nodes first it)
    simp only [selectNode, List.foldl_cons] at h ⊢
    rcases h with h | h
    · rcases selectStep_eq nodes first it with h1 | h1
      · left; rw [h, h1]
      · right; rw [h, h1]; exact List.mem_cons_self _ _
    · right; exact List.mem_cons_of_mem _ h

theorem relax_fst {n : Nat} (lm : Libm) (g : Grid n) (targetnode node : Fin n)
    (closedSet : List (Fin n)) (st : List (Fin n) × (Fin n → Scratch)) (it : Fin n) :
    ((relax lm g targetnode node closedSet st it).1 = st.1
        ∧ (g.walkable it = true → it ∈ closedSet ∨ it ∈ st.1))
      ∨ ((relax lm g targetnode node closedSet st it).1 = st.1 ++ [it]
        ∧ it ∉ st.1 ∧ g.walkable it = true ∧ it ∉ closedSet) := by
  by_cases hw : g.walkable it = true
  · by_cases hcl : it ∈ closedSet
    · left
      have h1 : (!g.walkable it || Contain closedSet it) = true := by
        simp [(Contain_iff closedSet it).2 hcl]
      exact ⟨by rw [relax, if_pos h1], fun _ => Or.inl hcl⟩
    · have h1 : ¬ ((!g.walkable it || Contain closedSet it) = true) := by
        simp [hw, Contain_eq_false_iff, hcl]
      by_cases hop : it ∈ st.1
      · left
        have h3 : Contain st.1 it = true := (Contain_iff st.1 it).2 hop
        refine ⟨?_, fun _ => Or.inr hop⟩
        rw [relax, if_neg h1, h3]
        by_cases h2 : (st.2 node).gCost + GetDistance lm g node it < (st.2 it).gCost
        · simp [h2]
        · simp [h2]
      · right
        have h3 : Contain st.1 it = false := (Contain_eq_false_iff _ _).2 hop
        refine ⟨?_, hop, hw, hcl⟩
        rw [relax, if_neg h1]
        simp only [h3, or_true, if_true]
  · left
    have h1 : (!g.walkable it || Contain closedSet it) = true := by
      simp only [Bool.not_eq_true] at hw
      simp [hw]
    exact ⟨by rw [relax, if_pos h1], fun h => absurd h hw⟩

theorem relax_open_sub {n : Nat} (lm : Libm) (g : Grid n) (targetnode node : Fin n)
    (closedSet : List (Fin n)) (st : List (Fin n) × (Fin n → Scratch)) (it c : Fin n)
    (hc : c ∈ st.1) : c ∈ (relax lm g targetnode node closedSet st it).1 := by
  rcases relax_fst lm g targetnode node closedSet st it with ⟨h, _⟩ | ⟨h, _⟩
  · rw [h]; exact hc
  · rw [h]; exact List.mem_append_left _ hc

theorem relax_open_mem {n : Nat} (lm : Libm) (g : Grid n) (targetnode node : Fin n)
    (closedSet : List (Fin n)) (st : List (Fin n) × (Fin n → Scratch)) (it c : Fin n)
    (hc : c ∈ (relax lm g targetnode node closedSet st it).1) :
    c ∈ st.1 ∨ (c = it ∧ g.walkable it = true ∧ it ∉ closedSet) := by
  rcases relax_fst lm g targetnode node closedSet st it with ⟨h, _⟩ | ⟨h, _, hw, hcl⟩
  · rw [h] at hc; exact Or.inl hc
  · rw [h] at hc
    rcases List.mem_append.1 hc with h1 | h1
    · exact Or.inl h1
    · exact Or.inr ⟨List.mem_singleton.1 h1, hw, hcl⟩

theorem relax_nodup {n : Nat} (lm : Libm) (g : Grid n) (targetnode node : Fin n)
    (closedSet : List (Fin n)) (st : List (Fin n) × (Fin n → Scratch)) (it : Fin n)
    (hn : st.1.Nodup) : (relax lm g targetnode node closedSet st it).1.Nodup := by
  rcases relax_fst lm g targetnode node closedSet st it with ⟨h, _⟩ | ⟨h, hop, _, _⟩
  · rw [h]; exact hn
  · rw [h]
    exact List.Nodup.append hn (List.nodup_singleton it) (by simpa using hop)

theorem relax_covers {n : Nat} (lm : Libm) (g : Grid n) (targetnode node : Fin n)
    (closedSet : List (Fin n)) (st : List (Fin n) × (Fin n → Scratch)) (it : Fin n)
    (hw : g.walkable it = true) :
    it ∈ closedSet ∨ it ∈ (relax lm g targetnode node closedSet st it).1 := by
  rcases relax_fst lm g targetnode node closedSet st it with ⟨h, h1⟩ | ⟨h, _, _, _⟩
  · rw [h]; exact h1 hw
  · rw [h]; exact Or.inr (List.mem_append_right _ (List.mem_singleton_self it))

theorem foldl_relax_sub {n : Nat} (lm : Libm) (g : Grid n) (targetnode node : Fin n)
    (closedSet : List (Fin n)) (l : List (Fin n)) (st : List (Fin n) × (Fin n → Scratch))
    (c : Fin n) (hc : c ∈ st.1) :
    c ∈ (l.foldl (relax lm g targetnode node closedSet) st).1 := by
  induction l generalizing st with
  | nil => simpa using hc
  | cons it rest ih =>
    simp only [List.foldl_cons]
    exact ih _ (relax_open_sub lm g targetnode node closedSet st it c hc)

theorem foldl_relax_mem {n : Nat} (lm : Libm) (g : Grid n) (targetnode node : Fin n)
    (closedSet : List (Fin n)) (l : List (Fin n)) (st : List (Fin n) × (Fin n → Scratch))
    (c : Fin n) (hc : c ∈ (l.foldl (relax lm g targetnode node closedSet) st).1) :
    c ∈ st.1 ∨ (c ∈ l ∧ g.walkable c = true ∧ c ∉ closedSet) := by
  induction l generalizing st with
  | nil => left; simpa using hc
  | cons it rest ih =>
    simp only [List.foldl_cons] at hc
    rcases ih _ hc with h | ⟨h1, h2, h3⟩
    · rcases relax_open_mem lm g targetnode node closedSet st it c h with h | ⟨h1, h2, h3⟩
      · exact Or.inl h
      · right
        subst h1
        exact ⟨List.mem_cons_self _ _, h2, h3⟩
    · exact Or.inr ⟨List.mem_cons_of_mem _ h1, h2, h3⟩

theorem foldl_relax_nodup {n : Nat} (lm : Libm) (g : Grid n) (targetnode node : Fin n)
    (closedSet : List (Fin n)) (l : List (Fin n)) (st : List (Fin n) × (Fin n → Scratch))
    (hn : st.1.Nodup) : (l.foldl (relax lm g targetnode node closedSet) st).1.Nodup := by
  induction l generalizing st with
  | nil => simpa using hn
  | cons it rest ih =>
    simp only [List.foldl_cons]
    exact ih _ (relax_nodup lm g targetnode node closedSet st it hn)

theorem foldl_relax_covers {n : Nat} (lm : Libm) (g : Grid n) (targetnode node : Fin n)
    (closedSet : List (Fin n)) (l : List (Fin n)) (st : List (Fin n) × (Fin n → Scratch))
    (d : Fin n) (hd : d ∈ l) (hw : g.walkable d = true) :
    d ∈ closedSet ∨ d ∈ (l.foldl (relax lm g targetnode node closedSet) st).1 := by
  induction l generalizing st with
  | nil => simp at hd
  | cons it rest ih =>
    simp only [List.foldl_cons]
    rcases List.mem_cons.1 hd with h | h
    · subst h
      rcases relax_covers lm g targetnode node closedSet st d hw with h1 | h1
      · exact Or.inl h1
      · exact Or.inr (foldl_relax_sub lm g targetnode node closedSet rest _ d h1)
    · exact ih _ h

theorem iteration_nil {n : Nat} (lm : Libm) (g : Grid n) (targetnode : Fin n)
    (s : SearchState n) (hs : s.openSet = []) :
    iteration lm g targetnode s = Step.emptied s := by
  simp [iteration, hs]

theorem iteration_cons {n : Nat} (lm : Libm) (g : Grid n) (targetnode : Fin n)
    (s : SearchState n) (first : Fin n) (rest : List (Fin n)) (hs : s.openSet = first :: rest) :
    iteration lm g targetnode s =
      if selectNode s.nodes first s.openSet = targetnode then
        Step.reached ⟨s.openSet.erase (selectNode s.nodes first s.openSet),
          s.closedSet ++ [selectNode s.nodes first s.openSet], s.nodes⟩
      else
        Step.next
          ⟨(expand lm g targetnode (selectNode s.nodes first s.openSet)
              (s.closedSet ++ [selectNode s.nodes first s.openSet])
              (s.openSet.erase (selectNode s.nodes first s.openSet), s.nodes)).1,
            s.closedSet ++ [selectNode s.nodes first s.openSet],
            (expand lm g targetnode (selectNode s.nodes first s.openSet)
              (s.closedSet ++ [selectNode s.nodes first s.openSet])
              (s.openSet.erase (selectNode s.nodes first s.openSet), s.nodes)).2⟩ := by
  simp only [iteration, hs]

theorem selectNode_mem_open {n : Nat} (s : SearchState n) (first : Fin n)
    (rest : List (Fin n)) (hs : s.openSet = first :: rest) :
    selectNode s.nodes first s.openSet ∈ s.openSet := by
  rcases selectNode_mem s.nodes s.openSet first with h | h
  · rw [h, hs]; exact List.mem_cons_self _ _
  · exact h

theorem SearchInv.init {n : Nat} (g : Grid n) (nodes : Fin n → Scratch)
    (startNode targetnode : Fin n) :
    SearchInv g startNode targetnode (initState nodes startNode) where
  nodupOpen := List.nodup_singleton _
  nodupClosed := List.nodup_nil
  disjoint := fun c _ => List.not_mem_nil c
  reach := fun c hc => by
    rcases hc with hc | hc
    · rw [List.mem_singleton.1 hc]; exact Relation.ReflTransGen.refl
    · exact absurd hc (List.not_mem_nil c)
  startIn := Or.inl (List.mem_singleton_self _)
  closedUnder := fun c hc => absurd hc (List.not_mem_nil c)
  targetOut := List.not_mem_nil _

theorem SearchInv.next {n : Nat} {lm : Libm} {g : Grid n} {startNode targetnode : Fin n}
    {s s1 : SearchState n} (hinv : SearchInv g startNode targetnode s)
    (h : iteration lm g targetnode s = Step.next s1) :
    SearchInv g startNode targetnode s1
      ∧ ∃ node, node ∈ s.openSet ∧ s1.closedSet = s.closedSet ++ [node] := by
  cases hs : s.openSet with
  | nil => rw [iteration_nil lm g targetnode s hs] at h; cases h
  | cons first rest =>
    have hmem := selectNode_mem_open s first rest hs
    rw [iteration_cons lm g targetnode s first rest hs] at h
    generalize selectNode s.nodes first s.openSet = node at h hmem
    by_cases hnt : node = targetnode
    · rw [if_pos hnt] at h; cases h
    · rw [if_neg hnt] at h
      injection h with h
      subst h
      have hncl : node ∉ s.closedSet := hinv.disjoint node hmem
      have hsub : ∀ c, c ∈ s.openSet → c ≠ node →
          c ∈ (expand lm g targetnode node (s.closedSet ++ [node])
            (s.openSet.erase node, s.nodes)).1 := by
        intro c hc hne
        apply foldl_relax_sub
        exact (List.Nodup.mem_erase_iff hinv.nodupOpen).2 ⟨hne, hc⟩
      have hkeep : ∀ c, c ∈ s.openSet ∨ c ∈ s.closedSet →
          c ∈ (expand lm g targetnode node (s.closedSet ++ [node])
            (s.openSet.erase node, s.nodes)).1 ∨ c ∈ s.closedSet ++ [node] := by
        intro c hc
        rcases hc with hc | hc
        · by_cases hne : c = node
          · right; rw [hne]; simp
          · exact Or.inl (hsub c hc hne)
        · right; exact List.mem_append_left _ hc
      refine ⟨?_, node, by rw [← hs]; exact hmem, rfl⟩
      constructor
      · exact foldl_relax_nodup _ _ _ _ _ _ _ (List.Nodup.erase node hinv.nodupOpen)
      · exact List.Nodup.append hinv.nodupClosed (List.nodup_singleton node)
          (by simpa using hncl)
      · intro c hc
        rcases foldl_relax_mem _ _ _ _ _ _ _ c hc with h1 | ⟨_, _, h3⟩
        · have h2 := (List.Nodup.mem_erase_iff hinv.nodupOpen).1 h1
          simp only [List.mem_append, List.mem_singleton, not_or]
          exact ⟨hinv.disjoint c h2.2, h2.1⟩
        · exact h3
      · intro c hc
        rcases hc with hc | hc
        · rcases foldl_relax_mem _ _ _ _ _ _ _ c hc with h1 | ⟨h1, h2, _⟩
          · exact hinv.reach c (Or.inl (List.mem_of_mem_erase h1))
          · exact Relation.ReflTransGen.tail (hinv.reach node (Or.inl hmem)) ⟨h1, h2⟩
        · rcases List.mem_append.1 hc with h1 | h1
          · exact hinv.reach c (Or.inr h1)
          · rw [List.mem_singleton.1 h1]; exact hinv.reach node (Or.inl hmem)
      · exact hkeep startNode hinv.startIn
      · intro c hc d hd
        rcases List.mem_append.1 hc with h1 | h1
        · exact hkeep d (hinv.closedUnder c h1 d hd)
        · rw [List.mem_singleton.1 h1] at hd
          rcases foldl_relax_covers lm g targetnode node (s.closedSet ++ [node])
            (g.GetNeighbours node) (s.openSet.erase node, s.nodes) d hd.1 hd.2 with h2 | h2
          · exact Or.inr h2
          · exact Or.inl h2
      · simp only [List.mem_append, List.mem_singleton, not_or]
        exact ⟨hinv.targetOut, fun h => hnt h.symm⟩

theorem SearchInv.reached {n : Nat} {lm : Libm} {g : Grid n} {startNode targetnode : Fin n}
    {s s1 : SearchState n} (hinv : SearchInv g startNode targetnode s)
    (h : iteration lm g targetnode s = Step.reached s1) :
    Reachable g startNode targetnode := by
  cases hs : s.openSet with
  | nil => rw [iteration_nil lm g targetnode s hs] at h; cases h
  | cons first rest =>
    have hmem := selectNode_mem_open s first rest hs
    rw [iteration_cons lm g targetnode s first rest hs] at h
    generalize selectNode s.nodes first s.openSet = node at h hmem
    by_cases hnt : node = targetnode
    · rw [← hnt]; exact hinv.reach node (Or.inl hmem)
    · rw [if_neg hnt] at h; cases h

theorem SearchInv.emptied {n : Nat} {lm : Libm} {g : Grid n} {startNode targetnode : Fin n}
    {s s1 : SearchState n} (hinv : SearchInv g startNode targetnode s)
    (h : iteration lm g targetnode s = Step.emptied s1) :
    s1.openSet = [] ∧ ¬ Reachable g startNode targetnode := by
  cases hs : s.openSet with
  | nil =>
    rw [iteration_nil lm g targetnode s hs] at h
    injection h with h
    subst h
    refine ⟨hs, fun hr => ?_⟩
    have hstart : startNode ∈ s.closedSet := by
      rcases hinv.startIn with h1 | h1
      · rw [hs] at h1; exact absurd h1 (List.not_mem_nil _)
      · exact h1
    have hall : ∀ c, Reachable g startNode c → c ∈ s.closedSet := by
      intro c hc
      induction hc with
      | refl => exact hstart
      | tail _ hstep ih =>
        rcases hinv.closedUnder _ ih _ hstep with h1 | h1
        · rw [hs] at h1; exact absurd h1 (List.not_mem_nil _)
        · exact h1
    exact hinv.targetOut (hall targetnode hr)
  | cons first rest =>
    rw [iteration_cons lm g targetnode s first rest hs] at h
    split_ifs at h

theorem closed_length_le {n : Nat} {g : Grid n} {startNode targetnode : Fin n}
    {s : SearchState n} (hinv : SearchInv g startNode targetnode s) :
    s.closedSet.length ≤ n := by
  have h := List.Nodup.length_le_card hinv.nodupClosed
  simpa using h

theorem searchLoop_spec {n : Nat} (lm : Libm) (g : Grid n) (startNode targetnode : Fin n)
    (fuel : Nat) (s : SearchState n) (hinv : SearchInv g startNode targetnode s)
    (hfuel : n + 1 ≤ s.closedSet.length + fuel) :
    ∃ b s1, searchLoop lm g targetnode fuel s = Except.ok (b, s1)
      ∧ (b = true ↔ Reachable g startNode targetnode)
      ∧ (b = false → s1.openSet = []) := by
  induction fuel generalizing s with
  | zero =>
    have := closed_length_le hinv
    omega
  | succ fuel ih =>
    rw [searchLoop]
    cases hit : iteration lm g targetnode s with
    | emptied s1 =>
      have h := hinv.emptied hit
      exact ⟨false, s1, rfl, by simp [h.2], fun _ => h.1⟩
    | reached s1 =>
      have h := hinv.reached hit
      exact ⟨true, s1, rfl, by simp [h], by simp⟩
    | next s1 =>
      obtain ⟨hinv1, node, _, hcl⟩ := hinv.next hit
      apply ih s1 hinv1
      rw [hcl, List.length_append, List.length_singleton]
      omega

theorem reachable_iff_chain {n : Nat} (g : Grid n) (startNode targetnode : Fin n) :
    Reachable g startNode targetnode ↔
      ∃ chain : List (Fin n), List.Chain (WalkStep g) startNode chain
        ∧ (startNode :: chain).getLast (List.cons_ne_nil _ _) = targetnode :=
  ⟨List.exists_chain_of_relationReflTransGen,
    fun ⟨_, h1, h2⟩ => List.relationReflTransGen_of_exists_chain _ h1 h2⟩

/-- The loop of lines 47-125 taken alone, up to the call of `RetracePath` at line 92: on
every grid and for every pair of cells it comes to an end within `n + 1` loop tests; it
reaches the goal exactly when the goal is the start or a chain of walkable neighbour steps
leads from the start to the goal, and when it does not the open set is empty. -/
theorem searchLoop_true_iff_reachable {n : Nat} (lm : Libm) (g : Grid n)
    (nodes : Fin n → Scratch) (startNode targetnode : Fin n) :
    ∃ b s, searchLoop lm g targetnode (n + 1) (initState nodes startNode) = Except.ok (b, s)
      ∧ (b = true ↔ Relation.ReflTransGen (WalkStep g) startNode targetnode)
      ∧ (b = false → s.openSet = []) :=
  searchLoop_spec lm g startNode targetnode (n + 1) (initState nodes startNode)
    (SearchInv.init g nodes startNode targetnode) (by simp [initState])

theorem loopState_succ {n : Nat} {lm : Libm} {g : Grid n} {targetnode : Fin n}
    {s0 s1 : SearchState n} {k : Nat}
    (h : loopState lm g targetnode s0 (k + 1) = some s1) :
    ∃ s, loopState lm g targetnode s0 k = some s ∧ iteration lm g targetnode s = Step.next s1 := by
  cases hk : loopState lm g targetnode s0 k with
  | none => simp [loopState, hk] at h
  | some s =>
    refine ⟨s, rfl, ?_⟩
    cases hit : iteration lm g targetnode s with
    | emptied s2 => simp [loopState, hk, hit] at h
    | reached s2 => simp [loopState, hk, hit] at h
    | next s2 =>
      simp only [loopState, hk, hit, Option.some.injEq] at h
      rw [h]

theorem loopState_inv {n : Nat} (lm : Libm) (g : Grid n) (nodes : Fin n → Scratch)
    (startNode targetnode : Fin n) (k : Nat) (s : SearchState n)
    (h : loopState lm g targetnode (initState nodes startNode) k = some s) :
    SearchInv g startNode targetnode s := by
  induction k generalizing s with
  | zero =>
    simp only [loopState, Option.some.injEq] at h
    rw [← h]
    exact SearchInv.init g nodes startNode targetnode
  | succ k ih =>
    obtain ⟨s0, h0, hit⟩ := loopState_succ h
    exact ((ih s0 h0).next hit).1

theorem loopState_closed_mono {n : Nat} (lm : Libm) (g : Grid n) (nodes : Fin n → Scratch)
    (startNode targetnode : Fin n) (k j : Nat) (s s1 : SearchState n)
    (h : loopState lm g targetnode (initState nodes startNode) k = some s)
    (h1 : loopState lm g targetnode (initState nodes startNode) (k + j) = some s1) :
    ∀ c, c ∈ s.closedSet → c ∈ s1.closedSet := by
  induction j generalizing s1 with
  | zero =>
    rw [Nat.add_zero, h] at h1
    simp only [Option.some.injEq] at h1
    rw [← h1]
    exact fun c hc => hc
  | succ j ih =>
    obtain ⟨s2, h2, hit⟩ := loopState_succ (k := k + j) h1
    obtain ⟨_, node, _, hcl⟩ := (loopState_inv lm g nodes startNode targetnode _ s2 h2).next hit
    intro c hc
    rw [hcl]
    exact List.mem_append_left _ (ih s2 h2 c hc)

/-- C9: at the head of every iteration of the `FindPath` loop the open set holds no cell
twice, the closed set holds no cell twice, the two sets share no cell, and a cell of the
closed set is in the closed set and not in the open set at every later iteration. -/
theorem open_closed_duplicate_free {n : Nat} (lm : Libm) (g : Grid n)
    (nodes : Fin n → Scratch) (startNode targetnode : Fin n) (k : Nat) (s : SearchState n)
    (h : loopState lm g targetnode (initState nodes startNode) k = some s) :
    s.openSet.Nodup ∧ s.closedSet.Nodup ∧ (∀ c, c ∈ s.openSet → c ∉ s.closedSet)
      ∧ ∀ j s1, loopState lm g targetnode (initState nodes startNode) (k + j) = some s1 →
          ∀ c, c ∈ s.closedSet → c ∈ s1.closedSet ∧ c ∉ s1.openSet := by
  have hinv := loopState_inv lm g nodes startNode targetnode k s h
  refine ⟨hinv.nodupOpen, hinv.nodupClosed, hinv.disjoint, ?_⟩
  intro j s1 h1 c hc
  have hc1 := loopState_closed_mono lm g nodes startNode targetnode k j s s1 h h1 c hc
  have hinv1 := loopState_inv lm g nodes startNode targetnode (k + j) s1 h1
  exact ⟨hc1, fun ho => hinv1.disjoint c ho hc1⟩

theorem open_closed_duplicate_free_witness :
    ∃ s, loopState libmQ grid54 (cell54 4 2) (initState (scratch0 _) (cell54 0 0)) 5 = some s
      ∧ s.openSet.Nodup ∧ s.closedSet.Nodup ∧ (∀ c, c ∈ s.openSet → c ∉ s.closedSet)
      ∧ ∀ j s1, loopState libmQ grid54 (cell54 4 2) (initState (scratch0 _) (cell54 0 0))
            (5 + j) = some s1 →
          ∀ c, c ∈ s.closedSet → c ∈ s1.closedSet ∧ c ∉ s1.openSet := by
  have hsome : (loopState libmQ grid54 (cell54 4 2)
      (initState (scratch0 _) (cell54 0 0)) 5).isSome = true := by decide!
  obtain ⟨s, hs⟩ := Option.isSome_iff_exists.1 hsome
  exact ⟨s, hs, open_closed_duplicate_free libmQ grid54 (scratch0 _) (cell54 0 0)
    (cell54 4 2) 5 s hs⟩

/-! ## Reconstruction of the path -/

theorem retraceWalk_ok {n : Nat} (g : Grid n) (nodes : Fin n → Scratch) (startNode : Fin n)
    (fuel : Nat) (c : Fin n) (acc path : List Vector3)
    (h : retraceWalk g nodes startNode fuel c acc = Except.ok path) :
    ∃ cells : List (Fin n), path = acc ++ cells.map g.worldPosition
      ∧ (c = startNode → cells = [])
      ∧ (c ≠ startNode → cells.head? = some c ∧ ∃ last, cells.getLast? = some last
          ∧ last ≠ startNode
          ∧ g.NodeFromIndex (nodes last).parentX (nodes last).parentY = some startNode) := by
  induction fuel generalizing c acc with
  | zero => simp [retraceWalk] at h
  | succ fuel ih =>
    rw [retraceWalk] at h
    by_cases hc : c = startNode
    · rw [if_pos hc] at h
      injection h with h
      exact ⟨[], by simp [h], fun _ => rfl, fun hne => absurd hc hne⟩
    · rw [if_neg hc] at h
      cases hp : g.NodeFromIndex (nodes c).parentX (nodes c).parentY with
      | none => simp [hp] at h
      | some parent =>
        simp only [hp] at h
        obtain ⟨cells, h1, h2, h3⟩ := ih parent _ h
        refine ⟨c :: cells, by simp [h1], fun hcs => absurd hcs hc, fun _ => ⟨rfl, ?_⟩⟩
        by_cases hps : parent = startNode
        · rw [h2 hps]
          exact ⟨c, rfl, hc, by rw [hp, hps]⟩
        · obtain ⟨hhead, last, hlast, hne, hpar⟩ := h3 hps
          refine ⟨last, ?_, hne, hpar⟩
          cases cells with
          | nil => simp at hhead
          | cons d rest => rw [List.getLast?_cons_cons]; exact hlast

theorem reconstruct_ok {n : Nat} (g : Grid n) (nodes : Fin n → Scratch)
    (startNode endNode : Fin n) (path : List Vector3)
    (h : reconstruct g nodes startNode endNode = Except.ok path) :
    (endNode = startNode ∧ path = [])
      ∨ (endNode ≠ startNode ∧ path.getLast? = some (g.worldPosition endNode)
        ∧ ∃ c, c ≠ startNode
          ∧ g.NodeFromIndex (nodes c).parentX (nodes c).parentY = some startNode
          ∧ path.head? = some (g.worldPosition c)) := by
  unfold reconstruct at h
  cases hw : retraceWalk g nodes startNode (n + 1) endNode [] with
  | error e => rw [hw] at h; cases h
  | ok p =>
    rw [hw] at h
    have hp : path = p.reverse := by
      injection h with h
      exact h.symm
    obtain ⟨cells, h1, h2, h3⟩ := retraceWalk_ok g nodes startNode _ _ _ _ hw
    simp only [List.nil_append] at h1
    by_cases he : endNode = startNode
    · left
      refine ⟨he, ?_⟩
      rw [hp, h1, h2 he]
      rfl
    · right
      obtain ⟨hhead, last, hlast, hne, hpar⟩ := h3 he
      refine ⟨he, ?_, last, hne, hpar, ?_⟩
      · rw [hp, List.getLast?_reverse, h1, List.head?_map, hhead]
        rfl
      · rw [hp, List.head?_reverse, h1, List.getLast?_map, hlast]
        rfl

theorem firstReduction_ok_length (lm : Libm) (path : List Vector3) (r : Reduction)
    (h : firstReduction lm path = Except.ok r) : 2 ≤ path.length := by
  unfold firstReduction at h
  split at h
  · simp
  · cases h

theorem simplify_ok_length {n : Nat} (lm : Libm) (g : Grid n) (path out : List Vector3)
    (h : simplify lm g path = Except.ok out) : 2 ≤ path.length := by
  unfold simplify at h
  cases hf : firstReduction lm path with
  | error e => simp [hf] at h
  | ok r => exact firstReduction_ok_length lm path r hf

theorem FindPath_ok_true {n : Nat} (lm : Libm) (g : Grid n) (pl : Planner n)
    (startPos targetPos : Vector3) (r : Found n)
    (h : FindPath lm g pl startPos targetPos = Except.ok r) (hs : r.success = true) :
    ∃ startNode targetnode st path simplified_pose,
      g.NodeFromWorldPoint startPos = some startNode
      ∧ g.NodeFromWorldPoint targetPos = some targetnode
      ∧ searchLoop lm g targetnode (n + 1) (initState pl.nodes startNode) = Except.ok (true, st)
      ∧ reconstruct g st.nodes startNode targetnode = Except.ok path
      ∧ simplify lm g path = Except.ok simplified_pose
      ∧ r.planner.nodes = st.nodes ∧ r.planner.path = path
      ∧ r.sent = some simplified_pose := by
  unfold FindPath at h
  cases hsn : g.NodeFromWorldPoint startPos with
  | none => simp [hsn] at h
  | some startNode =>
    cases htn : g.NodeFromWorldPoint targetPos with
    | none => simp [hsn, htn] at h
    | some targetnode =>
      cases hl : searchLoop lm g targetnode (n + 1) (initState pl.nodes startNode) with
      | error e => simp [hsn, htn, hl] at h
      | ok bs =>
        obtain ⟨b, st⟩ := bs
        cases b with
        | false =>
          simp only [hsn, htn, hl, Except.ok.injEq] at h
          rw [← h] at hs
          cases hs
        | true =>
          simp only [hsn, htn, hl] at h
          unfold RetracePath at h
          cases hrec : reconstruct g st.nodes startNode targetnode with
          | error e => simp [hrec] at h
          | ok path =>
            cases hsim : simplify lm g path with
            | error e => simp [hrec, hsim] at h
            | ok simplified_pose =>
              simp only [hrec, hsim, Except.ok.injEq] at h
              refine ⟨startNode, targetnode, st, path, simplified_pose, rfl, rfl, hl, hrec, hsim,
                ?_, ?_, ?_⟩ <;> rw [← h]

theorem observe_ok {n : Nat} (x : Except Fault (Found n)) (b : Bool) (p : List Vector3)
    (m : Option (List Vector3)) (h : observe x = Except.ok (b, p, m)) :
    ∃ r, x = Except.ok r ∧ r.success = b ∧ r.planner.path = p ∧ r.sent = m := by
  cases x with
  | error e => cases h
  | ok r =>
    simp only [observe, Except.map, Except.ok.injEq, Prod.mk.injEq] at h
    exact ⟨r, rfl, h.1, h.2.1, h.2.2⟩

theorem retraceWalk_cells {n : Nat} (g : Grid n) (nodes : Fin n → Scratch) (startNode : Fin n)
    (fuel : Nat) (c : Fin n) (acc path : List Vector3)
    (h : retraceWalk g nodes startNode fuel c acc = Except.ok path) :
    ∃ cells : List (Fin n), path = acc ++ cells.map g.worldPosition
      ∧ ∀ x ∈ cells, x ≠ startNode := by
  induction fuel generalizing c acc with
  | zero => simp [retraceWalk] at h
  | succ fuel ih =>
    rw [retraceWalk] at h
    by_cases hc : c = startNode
    · rw [if_pos hc] at h
      injection h with h
      exact ⟨[], by simp [h], fun x hx => absurd hx (List.not_mem_nil _)⟩
    · rw [if_neg hc] at h
      cases hp : g.NodeFromIndex (nodes c).parentX (nodes c).parentY with
      | none => simp [hp] at h
      | some parent =>
        simp only [hp] at h
        obtain ⟨cells, h1, h2⟩ := ih parent _ h
        refine ⟨c :: cells, by simp [h1], fun x hx => ?_⟩
        rcases List.mem_cons.mp hx with hx | hx
        · rw [hx]; exact hc
        · exact h2 x hx

theorem reconstruct_cells {n : Nat} (g : Grid n) (nodes : Fin n → Scratch)
    (startNode endNode : Fin n) (path : List Vector3)
    (h : reconstruct g nodes startNode endNode = Except.ok path) :
    ∃ cells : List (Fin n), path = cells.map g.worldPosition
      ∧ ∀ x ∈ cells, x ≠ startNode := by
  unfold reconstruct at h
  cases hw : retraceWalk g nodes startNode (n + 1) endNode [] with
  | error e => rw [hw] at h; cases h
  | ok p =>
    rw [hw] at h
    have hp : path = p.reverse := by
      injection h with h
      exact h.symm
    obtain ⟨cells, h1, h2⟩ := retraceWalk_cells g nodes startNode _ _ _ _ hw
    refine ⟨cells.reverse, ?_, fun x hx => h2 x (List.mem_reverse.mp hx)⟩
    rw [hp, h1, List.nil_append, List.map_reverse]

/-- C2 as stated fails: on three walkable cells in a row, from `(0,0)` to `(2,0)`,
`FindPath` succeeds and `grid.path` starts with the position of `(1,0)`, not with the
position of the start cell. -/
theorem path_first_point_not_start :
    ∃ r, FindPath libmQ grid31 ⟨scratch0 _, []⟩ ⟨0, 0, 0⟩ ⟨2, 0, 0⟩ = Except.ok r
      ∧ r.success = true
      ∧ grid31.NodeFromWorldPoint ⟨0, 0, 0⟩ = some 0
      ∧ r.planner.path.head? ≠ some (grid31.worldPosition 0) := by
  obtain ⟨r, hr, hs, hp, _⟩ := observe_ok _ true [⟨1, 0, 0⟩, ⟨2, 0, 0⟩]
    (some [⟨1, 0, 0⟩, ⟨2, 0, 0⟩])
    (by decide! : observe (FindPath libmQ grid31 ⟨scratch0 _, []⟩ ⟨0, 0, 0⟩ ⟨2, 0, 0⟩) = _)
  refine ⟨r, hr, hs, by decide!, ?_⟩
  rw [hp]
  decide!

/-- C2, amended: after every successful `FindPath` call the last point of `grid.path` is
the world position of the goal cell, its first point is the world position of a cell
other than the start cell whose recorded parent indices resolve to the start cell, and
`grid.path` lists the world positions of cells none of which is the start cell (the
backward walk stops at the start cell without pushing it). -/
theorem path_endpoints {n : Nat} (lm : Libm) (g : Grid n) (pl : Planner n)
    (startPos targetPos : Vector3) (r : Found n)
    (h : FindPath lm g pl startPos targetPos = Except.ok r) (hs : r.success = true) :
    ∃ startNode targetnode, g.NodeFromWorldPoint startPos = some startNode
      ∧ g.NodeFromWorldPoint targetPos = some targetnode
      ∧ r.planner.path.getLast? = some (g.worldPosition targetnode)
      ∧ (∃ c, c ≠ startNode
        ∧ g.NodeFromIndex (r.planner.nodes c).parentX (r.planner.nodes c).parentY
            = some startNode
        ∧ r.planner.path.head? = some (g.worldPosition c))
      ∧ ∃ cells : List (Fin n), r.planner.path = cells.map g.worldPosition
        ∧ ∀ x ∈ cells, x ≠ startNode := by
  obtain ⟨startNode, targetnode, st, path, sp, h1, h2, _, h4, h5, h6, h7, _⟩ :=
    FindPath_ok_true lm g pl startPos targetPos r h hs
  refine ⟨startNode, targetnode, h1, h2, ?_⟩
  rw [h6, h7]
  rcases reconstruct_ok g st.nodes startNode targetnode path h4 with ⟨_, hnil⟩ | ⟨_, hl, hc⟩
  · have := simplify_ok_length lm g path sp h5
    rw [hnil] at this
    simp at this
  · exact ⟨hl, hc, reconstruct_cells g st.nodes startNode targetnode path h4⟩

theorem path_endpoints_witness :
    ∃ r, FindPath libmQ grid31 ⟨scratch0 _, []⟩ ⟨0, 0, 0⟩ ⟨2, 0, 0⟩ = Except.ok r
      ∧ r.success = true
      ∧ ∃ startNode targetnode,
        grid31.NodeFromWorldPoint ⟨0, 0, 0⟩ = some startNode
        ∧ grid31.NodeFromWorldPoint ⟨2, 0, 0⟩ = some targetnode
        ∧ r.planner.path.getLast? = some (grid31.worldPosition targetnode)
        ∧ (∃ c, c ≠ startNode
          ∧ grid31.NodeFromIndex (r.planner.nodes c).parentX (r.planner.nodes c).parentY
              = some startNode
          ∧ r.planner.path.head? = some (grid31.worldPosition c))
        ∧ ∃ cells : List (Fin 3), r.planner.path = cells.map grid31.worldPosition
          ∧ ∀ x ∈ cells, x ≠ startNode := by
  obtain ⟨r, hr, hs, _, _⟩ := observe_ok _ true [⟨1, 0, 0⟩, ⟨2, 0, 0⟩]
    (some [⟨1, 0, 0⟩, ⟨2, 0, 0⟩])
    (by decide! : observe (FindPath libmQ grid31 ⟨scratch0 _, []⟩ ⟨0, 0, 0⟩ ⟨2, 0, 0⟩) = _)
  exact ⟨r, hr, hs, path_endpoints libmQ grid31 _ _ _ r hr hs⟩

theorem GlobalPlanCallback_ok {n : Nat} (lm : Libm) (g : Grid n) (pl : Planner n)
    (currentPos targetPos : Vector3) (resp : Response) (r : Found n)
    (h : GlobalPlanCallback lm g pl currentPos targetPos = Except.ok (resp, r)) :
    FindPath lm g pl currentPos targetPos = Except.ok r
      ∧ resp.success = r.success ∧ resp.path = r.planner.path := by
  unfold GlobalPlanCallback at h
  cases hf : FindPath lm g pl currentPos targetPos with
  | error e => simp [hf] at h
  | ok r1 =>
    simp only [hf, Except.ok.injEq, Prod.mk.injEq] at h
    obtain ⟨h1, h2⟩ := h
    subst h2
    rw [← h1]
    exact ⟨rfl, rfl, rfl⟩

/-- C10 as stated fails: on four walkable cells in a row, from `(0,0)` to `(3,0)`, the
response carries the three reconstructed points while the local planner is sent the two
points left by the reductions. -/
theorem response_path_not_simplified :
    ∃ resp r simplified_pose,
      GlobalPlanCallback libmQ grid41 ⟨scratch0 _, []⟩ ⟨0, 0, 0⟩ ⟨3, 0, 0⟩ = Except.ok (resp, r)
      ∧ resp.success = true ∧ r.sent = some simplified_pose
      ∧ resp.path ≠ simplified_pose := by
  obtain ⟨r, hr, hs, hp, hm⟩ := observe_ok _ true [⟨1, 0, 0⟩, ⟨2, 0, 0⟩, ⟨3, 0, 0⟩]
    (some [⟨1, 0, 0⟩, ⟨3, 0, 0⟩])
    (by decide! : observe (FindPath libmQ grid41 ⟨scratch0 _, []⟩ ⟨0, 0, 0⟩ ⟨3, 0, 0⟩) = _)
  refine ⟨⟨r.success, r.planner.path⟩, r, [⟨1, 0, 0⟩, ⟨3, 0, 0⟩], ?_, hs, hm, ?_⟩
  · simp [GlobalPlanCallback, hr]
  · simp only [hp]
    decide

/-- C10, amended: for every successful plan request the response carries the flag and
the reconstructed, unsimplified sequence that `RetracePath` stores in `grid.path`; the
sequence sent to the local planner is the result of the two reductions on it. -/
theorem response_path_is_reconstructed {n : Nat} (lm : Libm) (g : Grid n) (pl : Planner n)
    (currentPos targetPos : Vector3) (resp : Response) (r : Found n)
    (h : GlobalPlanCallback lm g pl currentPos targetPos = Except.ok (resp, r))
    (hs : resp.success = true) :
    ∃ startNode targetnode simplified_pose,
      g.NodeFromWorldPoint currentPos = some startNode
      ∧ g.NodeFromWorldPoint targetPos = some targetnode
      ∧ reconstruct g r.planner.nodes startNode targetnode = Except.ok resp.path
      ∧ simplify lm g resp.path = Except.ok simplified_pose
      ∧ r.sent = some simplified_pose := by
  obtain ⟨hf, h1, h2⟩ := GlobalPlanCallback_ok lm g pl currentPos targetPos resp r h
  rw [h1] at hs
  obtain ⟨startNode, targetnode, st, path, sp, h3, h4, _, h6, h7, h8, h9, h10⟩ :=
    FindPath_ok_true lm g pl currentPos targetPos r hf hs
  refine ⟨startNode, targetnode, sp, h3, h4, ?_, ?_, h10⟩
  · rw [h2, h8, h9]; exact h6
  · rw [h2, h9]; exact h7

theorem response_path_is_reconstructed_witness :
    ∃ resp r,
      GlobalPlanCallback libmQ grid41 ⟨scratch0 _, []⟩ ⟨0, 0, 0⟩ ⟨3, 0, 0⟩ = Except.ok (resp, r)
      ∧ resp.success = true
      ∧ ∃ startNode targetnode simplified_pose,
        grid41.NodeFromWorldPoint ⟨0, 0, 0⟩ = some startNode
        ∧ grid41.NodeFromWorldPoint ⟨3, 0, 0⟩ = some targetnode
        ∧ reconstruct grid41 r.planner.nodes startNode targetnode = Except.ok resp.path
        ∧ simplify libmQ grid41 resp.path = Except.ok simplified_pose
        ∧ r.sent = some simplified_pose := by
  obtain ⟨r, hr, hs, _, _⟩ := observe_ok _ true [⟨1, 0, 0⟩, ⟨2, 0, 0⟩, ⟨3, 0, 0⟩]
    (some [⟨1, 0, 0⟩, ⟨3, 0, 0⟩])
    (by decide! : observe (FindPath libmQ grid41 ⟨scratch0 _, []⟩ ⟨0, 0, 0⟩ ⟨3, 0, 0⟩) = _)
  have hg : GlobalPlanCallback libmQ grid41 ⟨scratch0 _, []⟩ ⟨0, 0, 0⟩ ⟨3, 0, 0⟩
      = Except.ok (⟨r.success, r.planner.path⟩, r) := by
    simp [GlobalPlanCallback, hr]
  exact ⟨_, r, hg, hs, response_path_is_reconstructed libmQ grid41 _ _ _ _ r hg hs⟩

/-! ## The selection scan and the cost of the returned path on `grid54` -/

/-- C4 fails on the code: in the run of `FindPath` on `grid54` from `(0,0)` to `(4,2)`, at
the sixth loop test the open set is `[(2,3), (3,3), (3,0)]`; the scan selects `(3,3)`,
whose `fCost` is larger than that of the open cell `(3,0)`. -/
theorem selection_not_minimum_fCost :
    ∃ s c d, loopState libmQ grid54 (cell54 4 2) (initState (scratch0 _) (cell54 0 0)) 5 = some s
      ∧ selected s = some c ∧ d ∈ s.openSet
      ∧ fCost (s.nodes d) < fCost (s.nodes c) := by
  have h1 : (loopState libmQ grid54 (cell54 4 2) (initState (scratch0 _) (cell54 0 0)) 5).map
      (fun s => (s.openSet, selected s, fCost (s.nodes (cell54 3 0)),
        fCost (s.nodes (cell54 3 3))))
      = some ([cell54 2 3, cell54 3 3, cell54 3 0], some (cell54 3 3),
          5236067 / 1000000, 1414213 / 250000) := by decide!
  cases hs : loopState libmQ grid54 (cell54 4 2) (initState (scratch0 _) (cell54 0 0)) 5 with
  | none => rw [hs] at h1; cases h1
  | some s =>
    rw [hs] at h1
    simp only [Option.map_some', Option.some.injEq, Prod.mk.injEq] at h1
    obtain ⟨ho, hsel, hf1, hf2⟩ := h1
    refine ⟨s, cell54 3 3, cell54 3 0, rfl, hsel, ?_, ?_⟩
    · rw [ho]; decide
    · rw [hf1, hf2]; norm_num

/-- C3 fails on the code: on `grid54` from `(0,0)` to `(4,2)` `FindPath` succeeds with the
path `(0,0), (1,1), (2,2), (3,3), (4,2)` (four diagonal steps), while the chain
`(0,0), (1,0), (2,0), (3,0), (4,1), (4,2)` of walkable neighbour steps costs less. -/
theorem returned_path_not_cheapest :
    ∃ r, FindPath libmQ grid54 ⟨scratch0 _, []⟩ ⟨0, 0, 0⟩ ⟨4, 2, 0⟩ = Except.ok r
      ∧ r.success = true
      ∧ grid54.worldPosition (cell54 0 0) :: r.planner.path
          = [cell54 0 0, cell54 1 1, cell54 2 2, cell54 3 3, cell54 4 2].map
              grid54.worldPosition
      ∧ isWalkChain grid54 [cell54 0 0, cell54 1 0, cell54 2 0, cell54 3 0, cell54 4 1,
          cell54 4 2] = true
      ∧ chainCost libmQ grid54 [cell54 0 0, cell54 1 0, cell54 2 0, cell54 3 0, cell54 4 1,
          cell54 4 2]
        < chainCost libmQ grid54 [cell54 0 0, cell54 1 1, cell54 2 2, cell54 3 3,
          cell54 4 2] := by
  obtain ⟨r, hr, hs, hp, _⟩ := observe_ok _ true
    [⟨1, 1, 0⟩, ⟨2, 2, 0⟩, ⟨3, 3, 0⟩, ⟨4, 2, 0⟩] (some [⟨1, 1, 0⟩, ⟨3, 2, 0⟩, ⟨4, 2, 0⟩])
    (by decide! : observe (FindPath libmQ grid54 ⟨scratch0 _, []⟩ ⟨0, 0, 0⟩ ⟨4, 2, 0⟩) = _)
  refine ⟨r, hr, hs, ?_, by decide!, by decide!⟩
  rw [hp]
  decide!

/-- C6 fails on the code: for the path that `FindPath` reconstructs on `grid54` from
`(0,0)` to `(4,2)`, the first reduction gives `(1,1), (3,3), (4,2)` and the second
reduction gives `(1,1), (3,2), (4,2)`; the march from `(3,2)` towards `(4,2)` hits an
unwalkable cell at its first probe. -/
theorem second_reduction_pair_collides :
    observe (FindPath libmQ grid54 ⟨scratch0 _, []⟩ ⟨0, 0, 0⟩ ⟨4, 2, 0⟩)
        = Except.ok (true, [⟨1, 1, 0⟩, ⟨2, 2, 0⟩, ⟨3, 3, 0⟩, ⟨4, 2, 0⟩],
            some [⟨1, 1, 0⟩, ⟨3, 2, 0⟩, ⟨4, 2, 0⟩])
      ∧ firstReduction libmQ [⟨1, 1, 0⟩, ⟨2, 2, 0⟩, ⟨3, 3, 0⟩, ⟨4, 2, 0⟩]
        = Except.ok ⟨[⟨1, 1, 0⟩, ⟨3, 3, 0⟩, ⟨4, 2, 0⟩], ⟨3, 3, 0⟩, ⟨4, 2, 0⟩⟩
      ∧ secondReduction libmQ grid54 ⟨[⟨1, 1, 0⟩, ⟨3, 3, 0⟩, ⟨4, 2, 0⟩], ⟨3, 3, 0⟩, ⟨4, 2, 0⟩⟩
        = Except.ok [⟨1, 1, 0⟩, ⟨3, 2, 0⟩, ⟨4, 2, 0⟩]
      ∧ collides libmQ grid54 ⟨3, 2, 0⟩ ⟨4, 2, 0⟩ = Except.ok true :=
  ⟨by decide!, by decide!, by decide!, by decide!⟩

/-! ## The two reductions -/

theorem pop_push (pose : List Vector3) (curr : Vector3) (b : Prop) [Decidable b]
    (h : 2 ≤ pose.length) :
    2 ≤ ((if b then pose.dropLast else pose) ++ [curr]).length
      ∧ ((if b then pose.dropLast else pose) ++ [curr]).head? = pose.head?
      ∧ ((if b then pose.dropLast else pose) ++ [curr]).getLast? = some curr := by
  refine ⟨?_, ?_, List.getLast?_concat _⟩
  · split_ifs
    · simp only [List.length_append, List.length_dropLast, List.length_singleton]; omega
    · simp only [List.length_append, List.length_singleton]; omega
  · match pose, h with
    | a :: b1 :: t, _ => split_ifs <;> simp [List.dropLast]

theorem foldl_firstStep_inv (lm : Libm) (rest : List Vector3) (st : Reduction)
    (h2 : 2 ≤ st.pose.length) (hl : st.pose.getLast? = some st.old1) :
    2 ≤ (rest.foldl (firstStep lm) st).pose.length
      ∧ (rest.foldl (firstStep lm) st).pose.head? = st.pose.head?
      ∧ (rest.foldl (firstStep lm) st).pose.getLast? = some (rest.foldl (firstStep lm) st).old1
      ∧ some (rest.foldl (firstStep lm) st).old1 = (st.old1 :: rest).getLast? := by
  induction rest generalizing st with
  | nil => exact ⟨h2, rfl, hl, rfl⟩
  | cons c rest ih =>
    simp only [List.foldl_cons]
    obtain ⟨k1, k2, k3⟩ := pop_push st.pose c
      (lm.atan2 (st.old1.y - st.old2.y) (st.old1.x - st.old2.x)
        = lm.atan2 (c.y - st.old1.y) (c.x - st.old1.x)) h2
    obtain ⟨i1, i2, i3, i4⟩ := ih (firstStep lm st c) k1 k3
    refine ⟨i1, i2.trans k2, i3, ?_⟩
    rw [i4, List.getLast?_cons_cons]
    rfl

theorem firstReduction_spec (lm : Libm) (p0 p1 : Vector3) (rest : List Vector3) :
    ∃ r, firstReduction lm (p0 :: p1 :: rest) = Except.ok r ∧ 2 ≤ r.pose.length
      ∧ r.pose.head? = some p0 ∧ r.pose.getLast? = some r.old1
      ∧ some r.old1 = (p0 :: p1 :: rest).getLast? := by
  obtain ⟨i1, i2, i3, i4⟩ := foldl_firstStep_inv lm rest ⟨[p0, p1], p0, p1⟩ (by simp) rfl
  refine ⟨_, rfl, i1, i2, i3, ?_⟩
  rw [i4, List.getLast?_cons_cons]

theorem collisionLoop_ok {n : Nat} (lm : Libm) (g : Grid n)
    (hres : ∀ p, (g.NodeFromWorldPoint p).isSome = true) (old2 : Vector3)
    (theta l_max inc : ℚ) (fuel : Nat) (l : ℚ) (h : l_max ≤ l + fuel * inc) :
    ∃ b, collisionLoop lm g old2 theta l_max inc (fuel + 1) l = Except.ok b := by
  induction fuel generalizing l with
  | zero =>
    have hl : ¬ l < l_max := by
      simp only [Nat.cast_zero, zero_mul, add_zero] at h
      exact not_lt.2 h
    exact ⟨false, by rw [collisionLoop, if_neg hl]⟩
  | succ fuel ih =>
    rw [collisionLoop]
    by_cases hl : l < l_max
    · rw [if_pos hl]
      obtain ⟨nd, hnd⟩ := Option.isSome_iff_exists.1
        (hres ⟨old2.x + l * lm.cos theta, old2.y + l * lm.sin theta, 0⟩)
      simp only [hnd]
      by_cases hw : g.walkable nd = false
      · exact ⟨true, by rw [if_pos hw]⟩
      · rw [if_neg hw]
        apply ih
        push_cast at h
        linarith
    · exact ⟨false, by rw [if_neg hl]⟩

theorem collides_ok {n : Nat} (lm : Libm) (g : Grid n)
    (hres : ∀ p, (g.NodeFromWorldPoint p).isSome = true) (old2 curr : Vector3) :
    ∃ b, collides lm g old2 curr = Except.ok b := by
  unfold collides
  apply collisionLoop_ok lm g hres
  have h := Nat.le_ceil (lm.sqrt ((curr.x - old2.x) ^ 2 + (curr.y - old2.y) ^ 2) / (2 / 100))
  rw [div_le_iff₀ (by norm_num)] at h
  linarith

theorem secondLoop_inv {n : Nat} (lm : Libm) (g : Grid n)
    (hres : ∀ p, (g.NodeFromWorldPoint p).isSome = true) (rest : List Vector3)
    (st : Reduction) (h2 : 2 ≤ st.pose.length) :
    ∃ r, secondLoop lm g rest st = Except.ok r ∧ 2 ≤ r.pose.length
      ∧ r.pose.head? = st.pose.head?
      ∧ r.pose.getLast? = (st.pose ++ rest).getLast? := by
  induction rest generalizing st with
  | nil => exact ⟨st, rfl, h2, rfl, by simp⟩
  | cons c rest ih =>
    obtain ⟨b, hb⟩ := collides_ok lm g hres st.old2 c
    obtain ⟨k1, k2, k3⟩ := pop_push st.pose c (b = false) h2
    obtain ⟨r, i1, i2, i3, i4⟩ :=
      ih ⟨(if b = false then st.pose.dropLast else st.pose) ++ [c], st.old1, c⟩ k1
    refine ⟨r, ?_, i2, i3.trans k2, ?_⟩
    · rw [secondLoop, secondStep, hb]
      exact i1
    · rw [i4, List.append_assoc]
      rw [List.getLast?_append_of_ne_nil _ (by simp : [c] ++ rest ≠ []),
        List.getLast?_append_of_ne_nil _ (List.cons_ne_nil c rest)]
      rfl

theorem latticeIndex_isSome (w h : Nat) (x y : Int) (hx0 : 0 ≤ x) (hx : x < w) (hy0 : 0 ≤ y)
    (hy : y < h) : (latticeIndex w h x y).isSome = true := by
  have hk : x.toNat * h + y.toNat < w * h := by
    have h1 : x.toNat + 1 ≤ w := by omega
    have h2 : y.toNat < h := by omega
    calc x.toNat * h + y.toNat < x.toNat * h + h := by omega
      _ = (x.toNat + 1) * h := by ring
      _ ≤ w * h := Nat.mul_le_mul_right h h1
  simp [latticeIndex, hx0, hx, hy0, hy, hk]

theorem lattice_resolves (w h : Nat) (cells : List (Int × Int)) (hw : 0 < w) (hh : 0 < h)
    (p : Vector3) : ((lattice w h cells).NodeFromWorldPoint p).isSome = true := by
  apply latticeIndex_isSome <;> omega

/-- C8: for every waypoint sequence of at least 2 points, on a grid that resolves every
probed position to a cell, the two reductions run to the end and their result starts
with the first point of the sequence and ends with its last point. -/
theorem simplify_keeps_endpoints {n : Nat} (lm : Libm) (g : Grid n) (path : List Vector3)
    (hlen : 2 ≤ path.length) (hres : ∀ p, (g.NodeFromWorldPoint p).isSome = true) :
    ∃ out, simplify lm g path = Except.ok out ∧ out.head? = path.head?
      ∧ out.getLast? = path.getLast? := by
  match path, hlen with
  | p0 :: p1 :: rest, _ =>
    obtain ⟨r, hr, h2, hhead, hlast, hold⟩ := firstReduction_spec lm p0 p1 rest
    rw [simplify, hr]
    simp only
    match hp : r.pose, h2 with
    | q0 :: q1 :: rest2, _ =>
      rw [hp] at hhead hlast
      obtain ⟨r2, k1, _, k3, k4⟩ := secondLoop_inv lm g hres rest2
        ⟨[⟨q0.x, q0.y, q0.z⟩, ⟨q1.x, r.old1.y, r.old1.z⟩], ⟨q0.x, q1.y, q1.z⟩,
          ⟨q1.x, r.old1.y, r.old1.z⟩⟩ (by simp)
      refine ⟨r2.pose, ?_, ?_, ?_⟩
      · rw [secondReduction, hp]
        simp only [k1, Except.map]
      · rw [k3]
        exact hhead
      · rw [k4, ← hold]
        cases rest2 with
        | nil =>
          simp only [List.getLast?_cons_cons, List.getLast?_singleton, Option.some.injEq]
            at hlast
          rw [← hlast]
          rfl
        | cons d t =>
          rw [← hlast]
          simp only [List.cons_append, List.nil_append, List.getLast?_cons_cons]

theorem simplify_keeps_endpoints_witness :
    2 ≤ [(⟨1, 1, 0⟩ : Vector3), ⟨2, 2, 0⟩, ⟨3, 3, 0⟩, ⟨4, 2, 0⟩].length
      ∧ (∀ p, (grid54.NodeFromWorldPoint p).isSome = true)
      ∧ ∃ out, simplify libmQ grid54 [⟨1, 1, 0⟩, ⟨2, 2, 0⟩, ⟨3, 3, 0⟩, ⟨4, 2, 0⟩] = Except.ok out
        ∧ out.head? = [(⟨1, 1, 0⟩ : Vector3), ⟨2, 2, 0⟩, ⟨3, 3, 0⟩, ⟨4, 2, 0⟩].head?
        ∧ out.getLast? = [(⟨1, 1, 0⟩ : Vector3), ⟨2, 2, 0⟩, ⟨3, 3, 0⟩, ⟨4, 2, 0⟩].getLast? :=
  ⟨by decide, lattice_resolves 5 4 _ (by decide) (by decide),
    simplify_keeps_endpoints libmQ grid54 _ (by decide)
      (lattice_resolves 5 4 _ (by decide) (by decide))⟩

/-! ## The first reduction is idempotent when bearings are exact -/

theorem foldl_firstStep_pose (lm : Libm) (rest init : List Vector3) (old2 old1 : Vector3) :
    (rest.foldl (firstStep lm) ⟨init ++ [old1], old2, old1⟩).pose
      = init ++ keptFrom lm old2 old1 rest := by
  induction rest generalizing init old2 old1 with
  | nil => rfl
  | cons c rest ih =>
    simp only [List.foldl_cons, keptFrom, bearing, firstStep]
    by_cases hb : lm.atan2 (old1.y - old2.y) (old1.x - old2.x)
        = lm.atan2 (c.y - old1.y) (c.x - old1.x)
    · rw [if_pos hb, if_pos hb, List.dropLast_concat]
      exact ih init old1 c
    · rw [if_neg hb, if_neg hb]
      rw [ih (init ++ [old1]) old1 c, List.append_assoc]
      rfl

theorem firstReduction_pose (lm : Libm) (p0 p1 : Vector3) (rest : List Vector3) :
    ∃ r, firstReduction lm (p0 :: p1 :: rest) = Except.ok r
      ∧ r.pose = p0 :: keptFrom lm p0 p1 rest :=
  ⟨_, rfl, foldl_firstStep_pose lm rest [p0] p0 p1⟩

theorem sameBearing_add (a b c d : ℚ) (h : SameBearing b a d c) :
    SameBearing (b + d) (a + c) b a := by
  unfold SameBearing bearingVector at *
  by_cases h1 : a = 0 ∧ b = 0
  · obtain ⟨ha, hb⟩ := h1
    subst ha hb
    by_cases h2 : c = 0 ∧ d = 0
    · obtain ⟨hc, hd⟩ := h2
      subst hc hd
      simp
    · simp only [and_self, if_true, if_neg h2, one_mul, zero_mul, zero_add, add_zero] at h ⊢
      obtain ⟨k1, k2⟩ := h
      simp [k1, k2]
  · rw [if_neg h1] at h
    by_cases h2 : c = 0 ∧ d = 0
    · obtain ⟨hc, hd⟩ := h2
      subst hc hd
      simp only [add_zero, if_neg h1]
      refine ⟨by ring, ?_⟩
      have : a ≠ 0 ∨ b ≠ 0 := by
        by_contra hcon
        push_neg at hcon
        exact h1 hcon
      rcases this with ha | hb
      · have := sq_pos_of_ne_zero (a := a) ha
        nlinarith [sq_nonneg b]
      · have := sq_pos_of_ne_zero (a := b) hb
        nlinarith [sq_nonneg a]
    · rw [if_neg h2] at h
      simp only at h
      obtain ⟨k1, k2⟩ := h
      have hsum : ¬ (a + c = 0 ∧ b + d = 0) := by
        rintro ⟨e1, e2⟩
        have hc : c = -a := by linarith
        have hd : d = -b := by linarith
        subst hc hd
        nlinarith [sq_nonneg a, sq_nonneg b]
      rw [if_neg hsum, if_neg h1]
      simp only
      refine ⟨by linarith, ?_⟩
      nlinarith [sq_nonneg a, sq_nonneg b]

theorem bearing_chord (lm : Libm) (hexact : BearingExact lm) (x o1 c : Vector3)
    (h : bearing lm x o1 = bearing lm o1 c) : bearing lm x c = bearing lm x o1 := by
  unfold bearing at *
  have h1 := (hexact _ _ _ _).1 h
  have h2 := sameBearing_add _ _ _ _ h1
  have e1 : o1.y - x.y + (c.y - o1.y) = c.y - x.y := by ring
  have e2 : o1.x - x.x + (c.x - o1.x) = c.x - x.x := by ring
  rw [e1, e2] at h2
  exact (hexact _ _ _ _).2 h2

theorem keptFrom_head (lm : Libm) (hexact : BearingExact lm) (rest : List Vector3)
    (x o2 o1 : Vector3) (h : bearing lm x o1 = bearing lm o2 o1) :
    ∃ q t, keptFrom lm o2 o1 rest = q :: t ∧ bearing lm x q = bearing lm x o1 := by
  induction rest generalizing o2 o1 with
  | nil => exact ⟨o1, [], rfl, rfl⟩
  | cons c rest ih =>
    rw [keptFrom]
    by_cases hb : bearing lm o2 o1 = bearing lm o1 c
    · rw [if_pos hb]
      have hc := bearing_chord lm hexact x o1 c (h.trans hb)
      obtain ⟨q, t, hq, hbq⟩ := ih o1 c (hc.trans (h.trans hb))
      exact ⟨q, t, hq, hbq.trans hc⟩
    · rw [if_neg hb]
      exact ⟨o1, _, rfl, rfl⟩

theorem keptFrom_fixed (lm : Libm) (hexact : BearingExact lm) (rest : List Vector3)
    (a o2 o1 : Vector3) (h : bearing lm a o1 = bearing lm o2 o1) (q1 : Vector3)
    (qrest : List Vector3) (hk : keptFrom lm o2 o1 rest = q1 :: qrest) :
    keptFrom lm a q1 qrest = q1 :: qrest := by
  induction rest generalizing a o2 o1 q1 qrest with
  | nil =>
    simp only [keptFrom, List.cons.injEq] at hk
    obtain ⟨h1, h2⟩ := hk
    subst h1 h2
    rfl
  | cons c rest ih =>
    rw [keptFrom] at hk
    by_cases hb : bearing lm o2 o1 = bearing lm o1 c
    · rw [if_pos hb] at hk
      have hc := bearing_chord lm hexact a o1 c (h.trans hb)
      exact ih a o1 c (hc.trans (h.trans hb)) q1 qrest hk
    · rw [if_neg hb] at hk
      simp only [List.cons.injEq] at hk
      obtain ⟨h1, h2⟩ := hk
      subst h1
      obtain ⟨q2, t, hq, hbq⟩ := keptFrom_head lm hexact rest o1 o1 c rfl
      rw [hq] at h2
      subst h2
      have hturn : ¬ bearing lm a o1 = bearing lm o1 q2 := by
        rw [h, hbq]
        exact hb
      rw [keptFrom, if_neg hturn]
      rw [ih o1 o1 c rfl q2 t hq]

/-- C7: with bearings compared exactly, the first reduction run on its own output gives
that output again, for every waypoint sequence of at least 2 points. -/
theorem firstReduction_idempotent (lm : Libm) (hexact : BearingExact lm)
    (path : List Vector3) (hlen : 2 ≤ path.length) :
    ∃ r1 r2, firstReduction lm path = Except.ok r1
      ∧ firstReduction lm r1.pose = Except.ok r2 ∧ r2.pose = r1.pose := by
  match path, hlen with
  | p0 :: p1 :: rest, _ =>
    obtain ⟨r1, h1, hp1⟩ := firstReduction_pose lm p0 p1 rest
    obtain ⟨q, t, hq, _⟩ := keptFrom_head lm hexact rest p0 p0 p1 rfl
    obtain ⟨r2, h2, hp2⟩ := firstReduction_pose lm p0 q t
    refine ⟨r1, r2, h1, ?_, ?_⟩
    · rw [hp1, hq]; exact h2
    · rw [hp2, hp1, hq, keptFrom_fixed lm hexact rest p0 p0 p1 rfl q t hq]

theorem atan2Q_bearingVector (y x : ℚ) :
    atan2Q y x = atan2Q (bearingVector y x).2 (bearingVector y x).1 := by
  unfold bearingVector
  by_cases h : x = 0 ∧ y = 0
  · rw [if_pos h, h.1, h.2]
    simp [atan2Q]
  · rw [if_neg h]

theorem abs_sum_pos (y x : ℚ) (h : ¬ (x = 0 ∧ y = 0)) : 0 < |x| + |y| := by
  by_contra hcon
  have h1 := abs_nonneg x
  have h2 := abs_nonneg y
  have hx : |x| = 0 := by linarith
  have hy : |y| = 0 := by linarith
  exact h ⟨abs_eq_zero.1 hx, abs_eq_zero.1 hy⟩

theorem dirQ_atan2Q (y x : ℚ) (h : ¬ (x = 0 ∧ y = 0)) :
    dirQ (atan2Q y x) = (x / (|x| + |y|), y / (|x| + |y|)) := by
  have hs := abs_sum_pos y x h
  unfold atan2Q
  rw [if_neg h]
  by_cases hy : 0 ≤ y
  · rw [if_pos hy]
    by_cases hx : 0 ≤ x
    · rw [if_pos hx]
      rw [abs_of_nonneg hx, abs_of_nonneg hy] at hs ⊢
      have t0 : 0 ≤ y / (x + y) := div_nonneg hy hs.le
      have t1 : y / (x + y) ≤ 1 := (div_le_one hs).2 (by linarith)
      unfold dirQ
      rw [if_pos t0, if_pos t1]
      refine Prod.ext ?_ rfl
      simp only
      field_simp
    · rw [if_neg hx]
      have hx1 : x < 0 := not_le.1 hx
      rw [abs_of_neg hx1, abs_of_nonneg hy] at hs ⊢
      have tp : 0 < -x / (-x + y) := div_pos (by linarith) hs
      have t0 : 0 ≤ 1 + -x / (-x + y) := by linarith
      have t1 : ¬ (1 + -x / (-x + y) ≤ 1) := by linarith
      unfold dirQ
      rw [if_pos t0, if_neg t1]
      refine Prod.ext ?_ ?_
      · simp only
        field_simp
      · simp only
        field_simp
        ring
  · rw [if_neg hy]
    have hy1 : y < 0 := not_le.1 hy
    by_cases hx : 0 ≤ x
    · rw [if_pos hx]
      rw [abs_of_nonneg hx, abs_of_neg hy1] at hs ⊢
      have tp : 0 < -y / (x + -y) := div_pos (by linarith) hs
      have tl : -y / (x + -y) ≤ 1 := (div_le_one hs).2 (by linarith)
      have t0 : ¬ (0 ≤ -(-y / (x + -y))) := by linarith
      have t1 : -1 ≤ -(-y / (x + -y)) := by linarith
      unfold dirQ
      rw [if_neg t0, if_pos t1]
      refine Prod.ext ?_ ?_
      · simp only
        field_simp
      · simp only
        field_simp
    · rw [if_neg hx]
      have hx1 : x < 0 := not_le.1 hx
      rw [abs_of_neg hx1, abs_of_neg hy1] at hs ⊢
      have tp : 0 < -x / (-x + -y) := div_pos (by linarith) hs
      have t0 : ¬ (0 ≤ -(1 + -x / (-x + -y))) := by linarith
      have t1 : ¬ (-1 ≤ -(1 + -x / (-x + -y))) := by linarith
      unfold dirQ
      rw [if_neg t0, if_neg t1]
      refine Prod.ext ?_ ?_
      · simp only
        field_simp
        ring
      · simp only
        field_simp
        ring

theorem atan2Q_smul (t y x : ℚ) (ht : 0 < t) : atan2Q (t * y) (t * x) = atan2Q y x := by
  have c1 : (t * x = 0 ∧ t * y = 0) ↔ (x = 0 ∧ y = 0) := by
    constructor
    · rintro ⟨h1, h2⟩
      exact ⟨(mul_eq_zero.1 h1).resolve_left ht.ne', (mul_eq_zero.1 h2).resolve_left ht.ne'⟩
    · rintro ⟨h1, h2⟩
      simp [h1, h2]
  have c2 : 0 ≤ t * y ↔ 0 ≤ y := by
    constructor
    · intro h; exact nonneg_of_mul_nonneg_right h ht
    · intro h; exact mul_nonneg ht.le h
  have c3 : 0 ≤ t * x ↔ 0 ≤ x := by
    constructor
    · intro h; exact nonneg_of_mul_nonneg_right h ht
    · intro h; exact mul_nonneg ht.le h
  have e : |t * x| + |t * y| = t * (|x| + |y|) := by
    rw [abs_mul, abs_mul, abs_of_pos ht]; ring
  unfold atan2Q
  simp only [c1, c2, c3, e]
  rw [abs_mul, abs_of_pos ht, mul_div_mul_left _ _ ht.ne', abs_mul, abs_of_pos ht,
    mul_div_mul_left _ _ ht.ne', mul_div_mul_left _ _ ht.ne']

theorem bearingVector_ne (y x : ℚ) :
    ¬ ((bearingVector y x).1 = 0 ∧ (bearingVector y x).2 = 0) := by
  unfold bearingVector
  by_cases h : x = 0 ∧ y = 0
  · rw [if_pos h]; simp
  · rw [if_neg h]; exact h

theorem atan2Q_eq_iff (y x y1 x1 : ℚ) (h : ¬ (x = 0 ∧ y = 0)) (h1 : ¬ (x1 = 0 ∧ y1 = 0)) :
    atan2Q y x = atan2Q y1 x1 ↔ (x * y1 = y * x1 ∧ 0 < x * x1 + y * y1) := by
  have hs := abs_sum_pos y x h
  have hs1 := abs_sum_pos y1 x1 h1
  constructor
  · intro he
    have hd : dirQ (atan2Q y x) = dirQ (atan2Q y1 x1) := by rw [he]
    rw [dirQ_atan2Q y x h, dirQ_atan2Q y1 x1 h1] at hd
    simp only [Prod.mk.injEq] at hd
    obtain ⟨hx, hy⟩ := hd
    rw [div_eq_div_iff hs.ne' hs1.ne'] at hx hy
    have hpos : 0 < x1 ^ 2 + y1 ^ 2 := by
      have : x1 ≠ 0 ∨ y1 ≠ 0 := by
        by_contra hcon
        push_neg at hcon
        exact h1 hcon
      rcases this with k | k
      · have := sq_pos_of_ne_zero (a := x1) k
        nlinarith [sq_nonneg y1]
      · have := sq_pos_of_ne_zero (a := y1) k
        nlinarith [sq_nonneg x1]
    constructor
    · have e : (x * y1 - y * x1) * (|x1| + |y1|) = 0 := by
        have : (x * y1 - y * x1) * (|x1| + |y1|)
            = x * (|x1| + |y1|) * y1 - y * (|x1| + |y1|) * x1 := by ring
        rw [this, hx, hy]; ring
      have := (mul_eq_zero.1 e).resolve_right hs1.ne'
      linarith
    · have e : (x * x1 + y * y1) * (|x1| + |y1|) = (x1 ^ 2 + y1 ^ 2) * (|x| + |y|) := by
        have : (x * x1 + y * y1) * (|x1| + |y1|)
            = x * (|x1| + |y1|) * x1 + y * (|x1| + |y1|) * y1 := by ring
        rw [this, hx, hy]; ring
      have hp : 0 < (x * x1 + y * y1) * (|x1| + |y1|) := by
        rw [e]; exact mul_pos hpos hs
      exact pos_of_mul_pos_left hp hs1.le
  · rintro ⟨hc, hd⟩
    have hpos : 0 < x ^ 2 + y ^ 2 := by
      have : x ≠ 0 ∨ y ≠ 0 := by
        by_contra hcon
        push_neg at hcon
        exact h hcon
      rcases this with k | k
      · have := sq_pos_of_ne_zero (a := x) k
        nlinarith [sq_nonneg y]
      · have := sq_pos_of_ne_zero (a := y) k
        nlinarith [sq_nonneg x]
    have ht : 0 < (x * x1 + y * y1) / (x ^ 2 + y ^ 2) := div_pos hd hpos
    have ex : x1 = (x * x1 + y * y1) / (x ^ 2 + y ^ 2) * x := by
      field_simp
      linear_combination (-y) * hc
    have ey : y1 = (x * x1 + y * y1) / (x ^ 2 + y ^ 2) * y := by
      field_simp
      linear_combination x * hc
    have key := atan2Q_smul _ y x ht
    rw [← ex, ← ey] at key
    exact key.symm

theorem atan2Q_exact : BearingExact libmQ := by
  intro y x y1 x1
  change atan2Q y x = atan2Q y1 x1 ↔ _
  rw [atan2Q_bearingVector y x, atan2Q_bearingVector y1 x1]
  exact atan2Q_eq_iff _ _ _ _ (bearingVector_ne y x) (bearingVector_ne y1 x1)

theorem firstReduction_idempotent_witness :
    BearingExact libmQ
      ∧ 2 ≤ [(⟨0, 0, 0⟩ : Vector3), ⟨1, 0, 0⟩, ⟨2, 1, 0⟩, ⟨3, 2, 0⟩, ⟨4, 3, 0⟩].length
      ∧ ∃ r1 r2,
        firstReduction libmQ [⟨0, 0, 0⟩, ⟨1, 0, 0⟩, ⟨2, 1, 0⟩, ⟨3, 2, 0⟩, ⟨4, 3, 0⟩]
          = Except.ok r1
        ∧ firstReduction libmQ r1.pose = Except.ok r2 ∧ r2.pose = r1.pose :=
  ⟨atan2Q_exact, by decide, firstReduction_idempotent libmQ atan2Q_exact _ (by decide)⟩

/-! ## Unresolved end points -/

/-- C12 fails on the code: for the first-reduction output `(1,1), (3,3), (4,2)` of the
path reconstructed on `grid54` from `(0,0)` to `(4,2)`, the second reduction returns a
sequence holding `(3,2)`, which is no point of its input. -/
theorem second_reduction_not_subsequence :
    ∃ first out p,
      firstReduction libmQ [⟨1, 1, 0⟩, ⟨2, 2, 0⟩, ⟨3, 3, 0⟩, ⟨4, 2, 0⟩] = Except.ok first
      ∧ secondReduction libmQ grid54 first = Except.ok out
      ∧ p ∈ out ∧ p ∉ first.pose :=
  ⟨⟨[⟨1, 1, 0⟩, ⟨3, 3, 0⟩, ⟨4, 2, 0⟩], ⟨3, 3, 0⟩, ⟨4, 2, 0⟩⟩,
    [⟨1, 1, 0⟩, ⟨3, 2, 0⟩, ⟨4, 2, 0⟩], ⟨3, 2, 0⟩,
    by decide!, by decide!, by decide!, by decide!⟩

/-! ## The selection scan -/

theorem selectStep_le {n : Nat} (nodes : Fin n → Scratch) (node it : Fin n) :
    fCost (nodes (selectStep nodes node it)) ≤ fCost (nodes node)
      ∧ (nodes (selectStep nodes node it)).hCost ≤ (nodes node).hCost
      ∧ ¬ (fCost (nodes it) ≤ fCost (nodes (selectStep nodes node it))
          ∧ (nodes it).hCost < (nodes (selectStep nodes node it)).hCost) := by
  unfold selectStep
  by_cases h1 : fCost (nodes it) < fCost (nodes node) ∨ fCost (nodes it) = fCost (nodes node)
  · rw [if_pos h1]
    by_cases h2 : (nodes it).hCost < (nodes node).hCost
    · rw [if_pos h2]
      exact ⟨le_of_lt_or_eq h1, le_of_lt h2, fun h => lt_irrefl _ h.2⟩
    · rw [if_neg h2]
      exact ⟨le_refl _, le_refl _, fun h => h2 h.2⟩
  · rw [if_neg h1]
    refine ⟨le_refl _, le_refl _, fun h => h1 ?_⟩
    exact lt_or_eq_of_le h.1

theorem foldl_selectStep_le {n : Nat} (nodes : Fin n → Scratch) (l : List (Fin n))
    (node : Fin n) :
    fCost (nodes (l.foldl (selectStep nodes) node)) ≤ fCost (nodes node)
      ∧ (nodes (l.foldl (selectStep nodes) node)).hCost ≤ (nodes node).hCost
      ∧ ∀ x, x ∈ l →
          ¬ (fCost (nodes x) ≤ fCost (nodes (l.foldl (selectStep nodes) node))
            ∧ (nodes x).hCost < (nodes (l.foldl (selectStep nodes) node)).hCost) := by
  induction l generalizing node with
  | nil => exact ⟨le_refl _, le_refl _, fun x hx => absurd hx (List.not_mem_nil x)⟩
  | cons it rest ih =>
    simp only [List.foldl_cons]
    obtain ⟨s1, s2, s3⟩ := selectStep_le nodes node it
    obtain ⟨i1, i2, i3⟩ := ih (selectStep nodes node it)
    refine ⟨le_trans i1 s1, le_trans i2 s2, ?_⟩
    intro x hx
    rcases List.mem_cons.1 hx with hx | hx
    · subst hx
      exact fun h => s3 ⟨le_trans h.1 i1, lt_of_lt_of_le h.2 i2⟩
    · exact i3 x hx

/-- C20: for every non-empty open set `first :: rest`, the cell chosen by the selection
scan is a member of the open set, and no cell of the open set has both an `fCost` at
most that of the chosen cell and an `hCost` strictly below that of the chosen cell. -/
theorem selection_not_dominated {n : Nat} (nodes : Fin n → Scratch) (first : Fin n)
    (rest : List (Fin n)) :
    selectNode nodes first (first :: rest) ∈ first :: rest
      ∧ ∀ x, x ∈ first :: rest →
          ¬ (fCost (nodes x) ≤ fCost (nodes (selectNode nodes first (first :: rest)))
            ∧ (nodes x).hCost < (nodes (selectNode nodes first (first :: rest))).hCost) := by
  constructor
  · rcases selectNode_mem nodes (first :: rest) first with h | h
    · rw [h]; exact List.mem_cons_self _ _
    · exact h
  · exact (foldl_selectStep_le nodes (first :: rest) first).2.2

/-! ## Termination of the search loop -/

theorem iteration_moves_one {n : Nat} {lm : Libm} {g : Grid n} {startNode targetnode : Fin n}
    {s s1 : SearchState n} (hinv : SearchInv g startNode targetnode s)
    (h : iteration lm g targetnode s = Step.next s1
      ∨ iteration lm g targetnode s = Step.reached s1) :
    ∃ node, node ∈ s.openSet ∧ node ∉ s.closedSet
      ∧ s1.closedSet = s.closedSet ++ [node] ∧ node ∉ s1.openSet := by
  rcases h with h | h
  · obtain ⟨hinv1, node, hmem, hcl⟩ := hinv.next h
    refine ⟨node, hmem, hinv.disjoint node hmem, hcl, fun ho => ?_⟩
    exact hinv1.disjoint node ho (by rw [hcl]; simp)
  · cases hs : s.openSet with
    | nil => rw [iteration_nil lm g targetnode s hs] at h; cases h
    | cons first rest =>
      have hmem := selectNode_mem_open s first rest hs
      rw [iteration_cons lm g targetnode s first rest hs] at h
      generalize selectNode s.nodes first s.openSet = node at h hmem
      by_cases hnt : node = targetnode
      · rw [if_pos hnt] at h
        injection h with h
        subst h
        refine ⟨node, by rw [← hs]; exact hmem, hinv.disjoint node hmem, rfl, ?_⟩
        exact fun ho => ((List.Nodup.mem_erase_iff hinv.nodupOpen).1 ho).1 rfl
      · rw [if_neg hnt] at h; cases h

theorem loopState_closed_length {n : Nat} (lm : Libm) (g : Grid n) (nodes : Fin n → Scratch)
    (startNode targetnode : Fin n) (k : Nat) (s : SearchState n)
    (h : loopState lm g targetnode (initState nodes startNode) k = some s) :
    s.closedSet.length = k := by
  induction k generalizing s with
  | zero =>
    simp only [loopState, Option.some.injEq] at h
    rw [← h]
    rfl
  | succ k ih =>
    obtain ⟨s0, h0, hit⟩ := loopState_succ h
    obtain ⟨_, node, _, hcl⟩ :=
      (loopState_inv lm g nodes startNode targetnode k s0 h0).next hit
    rw [hcl, List.length_append, ih s0 h0]
    rfl

theorem loopState_next {n : Nat} {lm : Libm} {g : Grid n} {targetnode : Fin n}
    {s0 s s1 : SearchState n} {k : Nat} (h : loopState lm g targetnode s0 k = some s)
    (hit : iteration lm g targetnode s = Step.next s1) :
    loopState lm g targetnode s0 (k + 1) = some s1 := by
  simp [loopState, h, hit]

theorem searchLoop_exit {n : Nat} (lm : Libm) (g : Grid n) (nodes : Fin n → Scratch)
    (startNode targetnode : Fin n) (fuel k : Nat) (s : SearchState n)
    (hk : loopState lm g targetnode (initState nodes startNode) k = some s)
    (hfuel : n + 1 ≤ k + fuel) :
    ∃ j s2 s1 b, loopState lm g targetnode (initState nodes startNode) j = some s2
      ∧ searchLoop lm g targetnode fuel s = Except.ok (b, s1)
      ∧ ((b = false ∧ iteration lm g targetnode s2 = Step.emptied s1 ∧ j ≤ n)
        ∨ (b = true ∧ iteration lm g targetnode s2 = Step.reached s1 ∧ j + 1 ≤ n)) := by
  induction fuel generalizing k s with
  | zero =>
    have h1 := closed_length_le (loopState_inv lm g nodes startNode targetnode k s hk)
    have h2 := loopState_closed_length lm g nodes startNode targetnode k s hk
    omega
  | succ fuel ih =>
    have hinv := loopState_inv lm g nodes startNode targetnode k s hk
    have hlen := loopState_closed_length lm g nodes startNode targetnode k s hk
    rw [searchLoop]
    cases hit : iteration lm g targetnode s with
    | emptied s1 =>
      refine ⟨k, s, s1, false, hk, rfl, Or.inl ⟨rfl, hit, ?_⟩⟩
      have := closed_length_le hinv
      omega
    | reached s1 =>
      refine ⟨k, s, s1, true, hk, rfl, Or.inr ⟨rfl, hit, ?_⟩⟩
      obtain ⟨node, _, hncl, _, _⟩ := iteration_moves_one hinv (Or.inr hit)
      have hnd : (s.closedSet ++ [node]).Nodup :=
        List.Nodup.append hinv.nodupClosed (List.nodup_singleton node) (by simpa using hncl)
      have hle := List.Nodup.length_le_card hnd
      simp only [List.length_append, List.length_singleton, Fintype.card_fin] at hle
      omega
    | next s1 =>
      exact ih (k + 1) s1 (loopState_next hk hit) (by omega)

/-- C18: on every grid of `n` cells the search loop of `FindPath` leaves after at most
`n` executions of its body: it reaches the head of some loop test number `j` (after `j`
executions) and there either finds the open set empty, with `j ≤ n`, or selects the
goal, with `j + 1 ≤ n`; and every execution of the body moves exactly one cell, which
was not closed before, from the open set to the closed set. -/
theorem search_terminates {n : Nat} (lm : Libm) (g : Grid n) (nodes : Fin n → Scratch)
    (startNode targetnode : Fin n) :
    (∃ j s2 s1 b, loopState lm g targetnode (initState nodes startNode) j = some s2
      ∧ searchLoop lm g targetnode (n + 1) (initState nodes startNode) = Except.ok (b, s1)
      ∧ ((b = false ∧ iteration lm g targetnode s2 = Step.emptied s1 ∧ j ≤ n)
        ∨ (b = true ∧ iteration lm g targetnode s2 = Step.reached s1 ∧ j + 1 ≤ n)))
    ∧ ∀ k s s1, loopState lm g targetnode (initState nodes startNode) k = some s →
        (iteration lm g targetnode s = Step.next s1
          ∨ iteration lm g targetnode s = Step.reached s1) →
        s.closedSet.length = k
          ∧ ∃ node, node ∈ s.openSet ∧ node ∉ s.closedSet
            ∧ s1.closedSet = s.closedSet ++ [node] ∧ node ∉ s1.openSet :=
  ⟨searchLoop_exit lm g nodes startNode targetnode (n + 1) 0 (initState nodes startNode) rfl
      (by omega),
    fun k s s1 hk hit =>
      ⟨loopState_closed_length lm g nodes startNode targetnode k s hk,
        iteration_moves_one (loopState_inv lm g nodes startNode targetnode k s hk) hit⟩⟩

/-! ## The first reduction and its wording in the design text -/

theorem specFirstStep_concat (lm : Libm) (init : List Vector3) (r2 r1 curr : Vector3) :
    specFirstStep lm (init ++ [r2, r1]) curr =
      if bearing lm r2 r1 = bearing lm r1 curr then init ++ [r2, curr]
      else init ++ [r2, r1, curr] := by
  have hrev : (init ++ [r2, r1]).reverse = r1 :: r2 :: init.reverse := by simp
  have hdrop : (init ++ [r2, r1]).dropLast = init ++ [r2] := by
    have : init ++ [r2, r1] = (init ++ [r2]) ++ [r1] := by simp
    rw [this, List.dropLast_concat]
  unfold specFirstStep
  rw [hrev]
  simp only [hdrop, List.append_assoc, List.cons_append, List.nil_append]

theorem foldl_firstStep_refines (lm : Libm) (hexact : BearingExact lm)
    (rest init : List Vector3) (r2 old2 old1 : Vector3)
    (hb : bearing lm r2 old1 = bearing lm old2 old1) :
    (rest.foldl (firstStep lm) ⟨init ++ [r2, old1], old2, old1⟩).pose
      = rest.foldl (specFirstStep lm) (init ++ [r2, old1]) := by
  induction rest generalizing init r2 old2 old1 with
  | nil => rfl
  | cons c rest ih =>
    simp only [List.foldl_cons]
    rw [specFirstStep_concat]
    have hstep : firstStep lm ⟨init ++ [r2, old1], old2, old1⟩ c
        = ⟨(if bearing lm old2 old1 = bearing lm old1 c then (init ++ [r2, old1]).dropLast
            else init ++ [r2, old1]) ++ [c], old1, c⟩ := rfl
    rw [hstep, ← hb]
    have hdrop : (init ++ [r2, old1]).dropLast = init ++ [r2] := by
      have : init ++ [r2, old1] = (init ++ [r2]) ++ [old1] := by simp
      rw [this, List.dropLast_concat]
    by_cases he : bearing lm r2 old1 = bearing lm old1 c
    · rw [if_pos he, if_pos he, hdrop]
      have hc := bearing_chord lm hexact r2 old1 c he
      have h1 : init ++ [r2] ++ [c] = init ++ [r2, c] := by simp
      rw [h1]
      exact ih init r2 old1 c (hc.trans he)
    · rw [if_neg he, if_neg he]
      have h1 : init ++ [r2, old1] ++ [c] = (init ++ [r2]) ++ [old1, c] := by simp
      have h2 : init ++ [r2, old1, c] = (init ++ [r2]) ++ [old1, c] := by simp
      rw [h1, h2]
      exact ih (init ++ [r2]) old1 old1 c rfl

/-- C13: with bearings compared exactly, for every waypoint sequence of at least 2 points
the first reduction of the code (which compares the bearings between the last three
input points) returns the same sequence as Pass 1 worded on the last two retained
points. -/
theorem firstReduction_refines_spec (lm : Libm) (hexact : BearingExact lm)
    (path : List Vector3) (hlen : 2 ≤ path.length) :
    ∃ r, firstReduction lm path = Except.ok r
      ∧ specFirstReduction lm path = some r.pose := by
  match path, hlen with
  | p0 :: p1 :: rest, _ =>
    refine ⟨_, rfl, ?_⟩
    have h := foldl_firstStep_refines lm hexact rest [] p0 p0 p1 rfl
    simp only [List.nil_append] at h
    rw [h]
    rfl

theorem firstReduction_refines_spec_witness :
    BearingExact libmQ
      ∧ 2 ≤ [(⟨0, 0, 0⟩ : Vector3), ⟨1, 0, 0⟩, ⟨2, 0, 0⟩, ⟨3, 1, 0⟩, ⟨4, 2, 0⟩].length
      ∧ ∃ r, firstReduction libmQ [⟨0, 0, 0⟩, ⟨1, 0, 0⟩, ⟨2, 0, 0⟩, ⟨3, 1, 0⟩, ⟨4, 2, 0⟩]
          = Except.ok r
        ∧ specFirstReduction libmQ [⟨0, 0, 0⟩, ⟨1, 0, 0⟩, ⟨2, 0, 0⟩, ⟨3, 1, 0⟩, ⟨4, 2, 0⟩]
          = some r.pose :=
  ⟨atan2Q_exact, by decide, firstReduction_refines_spec libmQ atan2Q_exact _ (by decide)⟩

/-! ## One pass of the neighbour loop -/

theorem relax_skip {n : Nat} (lm : Libm) (g : Grid n) (targetnode node : Fin n)
    (closedSet : List (Fin n)) (st : List (Fin n) × (Fin n → Scratch)) (it : Fin n)
    (h : g.walkable it = false ∨ it ∈ closedSet) :
    relax lm g targetnode node closedSet st it = st := by
  have h1 : (!g.walkable it || Contain closedSet it) = true := by
    rcases h with h | h
    · simp [h]
    · simp [(Contain_iff closedSet it).2 h]
  rw [relax, if_pos h1]

theorem relax_keep {n : Nat} (lm : Libm) (g : Grid n) (targetnode node : Fin n)
    (closedSet : List (Fin n)) (st : List (Fin n) × (Fin n → Scratch)) (it : Fin n)
    (hw : g.walkable it = true) (hcl : it ∉ closedSet) (hop : it ∈ st.1)
    (hg : ¬ (st.2 node).gCost + GetDistance lm g node it < (st.2 it).gCost) :
    relax lm g targetnode node closedSet st it = st := by
  have h1 : ¬ ((!g.walkable it || Contain closedSet it) = true) := by
    simp [hw, Contain_eq_false_iff, hcl]
  have h3 : Contain st.1 it = true := (Contain_iff st.1 it).2 hop
  rw [relax, if_neg h1, h3]
  simp [hg]

theorem relax_update {n : Nat} (lm : Libm) (g : Grid n) (targetnode node : Fin n)
    (closedSet : List (Fin n)) (st : List (Fin n) × (Fin n → Scratch)) (it : Fin n)
    (hw : g.walkable it = true) (hcl : it ∉ closedSet)
    (hc : (st.2 node).gCost + GetDistance lm g node it < (st.2 it).gCost ∨ it ∉ st.1) :
    relax lm g targetnode node closedSet st it
      = (if it ∈ st.1 then st.1 else st.1 ++ [it],
          Function.update st.2 it
            ⟨(st.2 node).gCost + GetDistance lm g node it, GetDistance lm g it targetnode,
              g.gridX node, g.gridY node⟩) := by
  have h1 : ¬ ((!g.walkable it || Contain closedSet it) = true) := by
    simp [hw, Contain_eq_false_iff, hcl]
  rw [relax, if_neg h1]
  by_cases hop : it ∈ st.1
  · have h3 : Contain st.1 it = true := (Contain_iff st.1 it).2 hop
    have hg : (st.2 node).gCost + GetDistance lm g node it < (st.2 it).gCost :=
      hc.resolve_right (fun h => h hop)
    simp [h3, hg, hop]
  · have h3 : Contain st.1 it = false := (Contain_eq_false_iff _ _).2 hop
    simp [h3, hop]

theorem relax_other {n : Nat} (lm : Libm) (g : Grid n) (targetnode node : Fin n)
    (closedSet : List (Fin n)) (st : List (Fin n) × (Fin n → Scratch)) (x c : Fin n)
    (hne : c ≠ x) :
    (relax lm g targetnode node closedSet st x).2 c = st.2 c
      ∧ (c ∈ (relax lm g targetnode node closedSet st x).1 ↔ c ∈ st.1) := by
  by_cases hs : g.walkable x = false ∨ x ∈ closedSet
  · rw [relax_skip lm g targetnode node closedSet st x hs]
    exact ⟨rfl, Iff.rfl⟩
  · have hw : g.walkable x = true := by
      cases hwx : g.walkable x with
      | false => exact absurd (Or.inl hwx) hs
      | true => rfl
    have hcl : x ∉ closedSet := fun h => hs (Or.inr h)
    by_cases hc : (st.2 node).gCost + GetDistance lm g node x < (st.2 x).gCost ∨ x ∉ st.1
    · rw [relax_update lm g targetnode node closedSet st x hw hcl hc]
      refine ⟨Function.update_noteq hne _ _, ?_⟩
      by_cases hop : x ∈ st.1
      · simp [hop]
      · simp [hop, hne]
    · have hop : x ∈ st.1 := by
        by_contra h
        exact hc (Or.inr h)
      rw [relax_keep lm g targetnode node closedSet st x hw hcl hop (fun h => hc (Or.inl h))]
      exact ⟨rfl, Iff.rfl⟩

theorem relax_closed {n : Nat} (lm : Libm) (g : Grid n) (targetnode node : Fin n)
    (closedSet : List (Fin n)) (st : List (Fin n) × (Fin n → Scratch)) (x c : Fin n)
    (hc : c ∈ closedSet) :
    (relax lm g targetnode node closedSet st x).2 c = st.2 c := by
  by_cases hx : c = x
  · rw [relax_skip lm g targetnode node closedSet st x (Or.inr (hx ▸ hc))]
  · exact (relax_other lm g targetnode node closedSet st x c hx).1

theorem foldl_relax_closed {n : Nat} (lm : Libm) (g : Grid n) (targetnode node : Fin n)
    (closedSet : List (Fin n)) (l : List (Fin n)) (st : List (Fin n) × (Fin n → Scratch))
    (c : Fin n) (hc : c ∈ closedSet) :
    (l.foldl (relax lm g targetnode node closedSet) st).2 c = st.2 c := by
  induction l generalizing st with
  | nil => rfl
  | cons x rest ih =>
    simp only [List.foldl_cons]
    rw [ih, relax_closed lm g targetnode node closedSet st x c hc]

theorem foldl_relax_unwalkable {n : Nat} (lm : Libm) (g : Grid n) (targetnode node : Fin n)
    (closedSet : List (Fin n)) (l : List (Fin n)) (st : List (Fin n) × (Fin n → Scratch))
    (c : Fin n) (hc : g.walkable c = false ∨ c ∈ closedSet) :
    (l.foldl (relax lm g targetnode node closedSet) st).2 c = st.2 c
      ∧ (c ∈ (l.foldl (relax lm g targetnode node closedSet) st).1 ↔ c ∈ st.1) := by
  induction l generalizing st with
  | nil => exact ⟨rfl, Iff.rfl⟩
  | cons x rest ih =>
    simp only [List.foldl_cons]
    by_cases hx : c = x
    · subst hx
      rw [relax_skip lm g targetnode node closedSet st c hc]
      exact ih st
    · obtain ⟨i1, i2⟩ := ih (relax lm g targetnode node closedSet st x)
      obtain ⟨k1, k2⟩ := relax_other lm g targetnode node closedSet st x c hx
      exact ⟨i1.trans k1, i2.trans k2⟩

theorem foldl_relax_settled {n : Nat} (lm : Libm) (g : Grid n) (targetnode node : Fin n)
    (closedSet : List (Fin n)) (hnode : node ∈ closedSet) (l : List (Fin n))
    (st : List (Fin n) × (Fin n → Scratch)) (c : Fin n)
    (hw : g.walkable c = true) (hcl : c ∉ closedSet) (hop : c ∈ st.1)
    (hg : ¬ (st.2 node).gCost + GetDistance lm g node c < (st.2 c).gCost) :
    (l.foldl (relax lm g targetnode node closedSet) st).2 c = st.2 c
      ∧ c ∈ (l.foldl (relax lm g targetnode node closedSet) st).1 := by
  induction l generalizing st with
  | nil => exact ⟨rfl, hop⟩
  | cons x rest ih =>
    simp only [List.foldl_cons]
    by_cases hx : c = x
    · subst hx
      rw [relax_keep lm g targetnode node closedSet st c hw hcl hop hg]
      exact ih st hop hg
    · obtain ⟨k1, k2⟩ := relax_other lm g targetnode node closedSet st x c hx
      have kn := relax_closed lm g targetnode node closedSet st x node hnode
      obtain ⟨i1, i2⟩ := ih (relax lm g targetnode node closedSet st x) (k2.2 hop)
        (by rw [kn, k1]; exact hg)
      exact ⟨i1.trans k1, i2⟩

theorem foldl_relax_updated {n : Nat} (lm : Libm) (g : Grid n) (targetnode node : Fin n)
    (closedSet : List (Fin n)) (hnode : node ∈ closedSet) (l : List (Fin n))
    (st : List (Fin n) × (Fin n → Scratch)) (c : Fin n) (hmem : c ∈ l)
    (hw : g.walkable c = true) (hcl : c ∉ closedSet)
    (hc : (st.2 node).gCost + GetDistance lm g node c < (st.2 c).gCost ∨ c ∉ st.1) :
    (l.foldl (relax lm g targetnode node closedSet) st).2 c
        = ⟨(st.2 node).gCost + GetDistance lm g node c, GetDistance lm g c targetnode,
            g.gridX node, g.gridY node⟩
      ∧ c ∈ (l.foldl (relax lm g targetnode node closedSet) st).1 := by
  induction l generalizing st with
  | nil => exact absurd hmem (List.not_mem_nil c)
  | cons x rest ih =>
    simp only [List.foldl_cons]
    have hcn : c ≠ node := fun h => hcl (h ▸ hnode)
    by_cases hx : c = x
    · subst hx
      rw [relax_update lm g targetnode node closedSet st c hw hcl hc]
      have hs := foldl_relax_settled lm g targetnode node closedSet hnode rest
        (if c ∈ st.1 then st.1 else st.1 ++ [c],
          Function.update st.2 c
            ⟨(st.2 node).gCost + GetDistance lm g node c, GetDistance lm g c targetnode,
              g.gridX node, g.gridY node⟩) c hw hcl
        (by by_cases hop : c ∈ st.1 <;> simp [hop])
        (by simp [Function.update_noteq hcn.symm])
      simp only [Function.update_same] at hs
      exact hs
    · obtain ⟨k1, k2⟩ := relax_other lm g targetnode node closedSet st x c hx
      have kn := relax_closed lm g targetnode node closedSet st x node hnode
      have hmem1 : c ∈ rest := (List.mem_cons.1 hmem).resolve_left hx
      have := ih (relax lm g targetnode node closedSet st x) hmem1
        (by rw [kn, k1, k2]; exact hc)
      rw [kn] at this
      exact this

theorem iteration_next_eq {n : Nat} {lm : Libm} {g : Grid n} {targetnode : Fin n}
    {s s1 : SearchState n} (h : iteration lm g targetnode s = Step.next s1) :
    ∃ node, selected s = some node ∧ node ∈ s.openSet ∧ node ≠ targetnode
      ∧ s1.closedSet = s.closedSet ++ [node]
      ∧ s1.openSet = (expand lm g targetnode node (s.closedSet ++ [node])
          (s.openSet.erase node, s.nodes)).1
      ∧ s1.nodes = (expand lm g targetnode node (s.closedSet ++ [node])
          (s.openSet.erase node, s.nodes)).2 := by
  cases hs : s.openSet with
  | nil => rw [iteration_nil lm g targetnode s hs] at h; cases h
  | cons first rest =>
    have hmem := selectNode_mem_open s first rest hs
    have hsel : selected s = some (selectNode s.nodes first s.openSet) := by
      simp only [selected, hs]
    rw [iteration_cons lm g targetnode s first rest hs] at h
    rw [hs] at hmem hsel h
    generalize selectNode s.nodes first (first :: rest) = node at h hmem hsel
    by_cases hnt : node = targetnode
    · rw [if_pos hnt] at h; cases h
    · rw [if_neg hnt] at h
      injection h with h
      subst h
      exact ⟨node, hsel, hmem, hnt, rfl, rfl, rfl⟩

/-- C14: in one pass of the `FindPath` loop that goes on to the next loop test, with the
state at the start of the neighbour loop being the open set without the selected cell,
the closed set with it, and the scratch fields as before, every neighbour `it` of the
selected cell `node` ends as follows. If it is not walkable or is in the closed set, its
scratch fields and its membership of the open set are unchanged. Otherwise, with
`tentativeG = node.gCost + GetDistance(node, it)`: if `tentativeG < it.gCost` or it is
not in the open set, afterwards its `gCost` is `tentativeG`, its `hCost` is
`GetDistance(it, targetnode)`, its parent indices are those of `node`, and it is in the
open set; if neither holds its scratch fields are unchanged and it stays in the open set. -/
theorem expansion_step {n : Nat} (lm : Libm) (g : Grid n) (targetnode : Fin n)
    (s s1 : SearchState n) (h : iteration lm g targetnode s = Step.next s1) :
    ∃ node, selected s = some node ∧ s1.closedSet = s.closedSet ++ [node]
      ∧ ∀ it, it ∈ g.GetNeighbours node →
        ((g.walkable it = false ∨ it ∈ s1.closedSet) →
            s1.nodes it = s.nodes it ∧ (it ∈ s1.openSet ↔ it ∈ s.openSet.erase node))
        ∧ (g.walkable it = true → it ∉ s1.closedSet →
            (((s.nodes node).gCost + GetDistance lm g node it < (s.nodes it).gCost
                  ∨ it ∉ s.openSet.erase node) →
                s1.nodes it
                    = ⟨(s.nodes node).gCost + GetDistance lm g node it,
                        GetDistance lm g it targetnode, g.gridX node, g.gridY node⟩
                  ∧ it ∈ s1.openSet)
            ∧ (¬ ((s.nodes node).gCost + GetDistance lm g node it < (s.nodes it).gCost
                  ∨ it ∉ s.openSet.erase node) →
                s1.nodes it = s.nodes it ∧ it ∈ s1.openSet)) := by
  obtain ⟨node, hsel, _, _, hcl, hop, hno⟩ := iteration_next_eq h
  refine ⟨node, hsel, hcl, ?_⟩
  have hnode : node ∈ s.closedSet ++ [node] := by simp
  intro it hit
  rw [hcl, hop, hno]
  refine ⟨fun hskip => ?_, fun hw hncl => ⟨fun hc => ?_, fun hc => ?_⟩⟩
  · exact foldl_relax_unwalkable lm g targetnode node _ _ (s.openSet.erase node, s.nodes) it
      hskip
  · exact foldl_relax_updated lm g targetnode node _ hnode _ (s.openSet.erase node, s.nodes)
      it hit hw hncl hc
  · have hin : it ∈ s.openSet.erase node := by
      by_contra hcon
      exact hc (Or.inr hcon)
    exact foldl_relax_settled lm g targetnode node _ hnode _ (s.openSet.erase node, s.nodes)
      it hw hncl hin (fun hlt => hc (Or.inl hlt))

theorem expansion_step_witness :
    ∃ s1, iteration libmQ grid31 2 (initState (scratch0 _) 0) = Step.next s1
      ∧ ∃ node, selected (initState (scratch0 (3 * 1)) 0) = some node
        ∧ s1.closedSet = (initState (scratch0 (3 * 1)) 0).closedSet ++ [node]
        ∧ ∀ it, it ∈ grid31.GetNeighbours node →
          ((grid31.walkable it = false ∨ it ∈ s1.closedSet) →
              s1.nodes it = (initState (scratch0 (3 * 1)) 0).nodes it
                ∧ (it ∈ s1.openSet ↔ it ∈ (initState (scratch0 (3 * 1)) 0).openSet.erase node))
          ∧ (grid31.walkable it = true → it ∉ s1.closedSet →
              ((((initState (scratch0 (3 * 1)) 0).nodes node).gCost
                      + GetDistance libmQ grid31 node it
                    < ((initState (scratch0 (3 * 1)) 0).nodes it).gCost
                    ∨ it ∉ (initState (scratch0 (3 * 1)) 0).openSet.erase node) →
                  s1.nodes it
                      = ⟨((initState (scratch0 (3 * 1)) 0).nodes node).gCost
                            + GetDistance libmQ grid31 node it,
                          GetDistance libmQ grid31 it 2, grid31.gridX node, grid31.gridY node⟩
                    ∧ it ∈ s1.openSet)
              ∧ (¬ (((initState (scratch0 (3 * 1)) 0).nodes node).gCost
                      + GetDistance libmQ grid31 node it
                    < ((initState (scratch0 (3 * 1)) 0).nodes it).gCost
                    ∨ it ∉ (initState (scratch0 (3 * 1)) 0).openSet.erase node) →
                  s1.nodes it = (initState (scratch0 (3 * 1)) 0).nodes it
                    ∧ it ∈ s1.openSet)) := by
  have hnext : (iteration libmQ grid31 2 (initState (scratch0 _) 0)).isNext = true := by
    decide!
  cases hit : iteration libmQ grid31 2 (initState (scratch0 _) 0) with
  | emptied s1 => rw [hit] at hnext; cases hnext
  | reached s1 => rw [hit] at hnext; cases hnext
  | next s1 => exact ⟨s1, rfl, expansion_step libmQ grid31 2 _ s1 hit⟩

/-! ## Parent links -/

theorem foldl_relax_absent {n : Nat} (lm : Libm) (g : Grid n) (targetnode node : Fin n)
    (closedSet : List (Fin n)) (l : List (Fin n)) (st : List (Fin n) × (Fin n → Scratch))
    (c : Fin n) (hc : c ∉ l) :
    (l.foldl (relax lm g targetnode node closedSet) st).2 c = st.2 c
      ∧ (c ∈ (l.foldl (relax lm g targetnode node closedSet) st).1 ↔ c ∈ st.1) := by
  induction l generalizing st with
  | nil => exact ⟨rfl, Iff.rfl⟩
  | cons x rest ih =>
    simp only [List.foldl_cons]
    have hx : c ≠ x := fun h => hc (h ▸ List.mem_cons_self _ _)
    have hr : c ∉ rest := fun h => hc (List.mem_cons_of_mem _ h)
    obtain ⟨i1, i2⟩ := ih (relax lm g targetnode node closedSet st x) hr
    obtain ⟨k1, k2⟩ := relax_other lm g targetnode node closedSet st x c hx
    exact ⟨i1.trans k1, i2.trans k2⟩

theorem Link.congr {n : Nat} {lm : Libm} {g : Grid n} {nodes nodes1 : Fin n → Scratch}
    {p c : Fin n} (h : Link lm g nodes p c) (hp : nodes1 p = nodes p) (hc : nodes1 c = nodes c) :
    Link lm g nodes1 p c := by
  unfold Link at *
  rw [hp, hc]
  exact h

theorem snoc_split {α : Type} (l1 l2 cl : List α) (c x : α) (h : cl ++ [x] = l1 ++ c :: l2) :
    (l2 = [] ∧ l1 = cl ∧ c = x) ∨ ∃ l3, l2 = l3 ++ [x] ∧ cl = l1 ++ c :: l3 := by
  rcases List.eq_nil_or_concat l2 with h2 | ⟨l3, y, h2⟩
  · subst h2
    left
    have := List.append_inj' h rfl
    simp only [List.cons.injEq, and_true] at this
    exact ⟨rfl, this.1.symm, this.2.symm⟩
  · subst h2
    right
    rw [List.concat_eq_append] at h ⊢
    have h1 : l1 ++ c :: (l3 ++ [y]) = (l1 ++ c :: l3) ++ [y] := by simp
    rw [h1] at h
    have := List.append_inj' h rfl
    simp only [List.cons.injEq, and_true] at this
    refine ⟨l3, ?_, this.1⟩
    rw [this.2]

theorem ParentInv.initial {n : Nat} (lm : Libm) (g : Grid n) (nodes : Fin n → Scratch)
    (startNode : Fin n) : ParentInv lm g startNode nodes (initState nodes startNode) where
  startState := Or.inr ⟨rfl, rfl⟩
  startScratch := rfl
  openParent := fun c hc hne => absurd (List.mem_singleton.1 hc) hne
  closedParent := fun l1 c l2 h => by
    simp [initState] at h

theorem ParentInv.snoc {n : Nat} {lm : Libm} {g : Grid n} {startNode : Fin n}
    {nodes0 : Fin n → Scratch} {s : SearchState n} (hp : ParentInv lm g startNode nodes0 s)
    (node : Fin n) (hmem : node ∈ s.openSet) (nodes1 : Fin n → Scratch)
    (hsame : ∀ c, c ∈ s.closedSet ++ [node] → nodes1 c = s.nodes c) :
    (startNode ∈ s.closedSet ++ [node])
      ∧ nodes1 startNode = nodes0 startNode
      ∧ ∀ l1 c l2, s.closedSet ++ [node] = l1 ++ c :: l2 → c ≠ startNode →
          ∃ p, p ∈ l1 ∧ Link lm g nodes1 p c := by
  have hstart : startNode ∈ s.closedSet ++ [node] := by
    rcases hp.startState with h | ⟨h, _⟩
    · exact List.mem_append_left _ h
    · rw [h] at hmem
      rw [List.mem_singleton.1 hmem]
      simp
  refine ⟨hstart, (hsame _ hstart).trans hp.startScratch, ?_⟩
  intro l1 c l2 hsplit hne
  rcases snoc_split l1 l2 s.closedSet c node hsplit with ⟨_, h1, hc⟩ | ⟨l3, h2, h3⟩
  · subst hc
    obtain ⟨p, hpm, hl⟩ := hp.openParent c hmem hne
    refine ⟨p, by rw [h1]; exact hpm, hl.congr (hsame p (List.mem_append_left _ hpm)) ?_⟩
    exact hsame c (by simp)
  · obtain ⟨p, hpm, hl⟩ := hp.closedParent l1 c l3 h3 hne
    refine ⟨p, hpm, hl.congr (hsame p ?_) (hsame c ?_)⟩
    · rw [h3]; simp [hpm]
    · rw [h3]; simp

theorem ParentInv.step {n : Nat} {lm : Libm} {g : Grid n} {startNode targetnode : Fin n}
    {nodes0 : Fin n → Scratch} {s s1 : SearchState n}
    (hp : ParentInv lm g startNode nodes0 s)
    (h : iteration lm g targetnode s = Step.next s1) :
    ParentInv lm g startNode nodes0 s1 := by
  obtain ⟨node, _, hmem, _, hcl, hop, hno⟩ := iteration_next_eq h
  have hnode : node ∈ s.closedSet ++ [node] := by simp
  have hsame : ∀ c, c ∈ s.closedSet ++ [node] → s1.nodes c = s.nodes c := by
    intro c hc
    rw [hno]
    exact foldl_relax_closed lm g targetnode node _ _ _ c hc
  obtain ⟨k1, k2, k3⟩ := hp.snoc node hmem s1.nodes hsame
  refine ⟨Or.inl (by rw [hcl]; exact k1), k2, ?_, by rw [hcl]; exact k3⟩
  intro c hc hne
  rw [hcl]
  have hold : c ∈ s.openSet.erase node →
      s1.nodes c = s.nodes c → ∃ p, p ∈ s.closedSet ++ [node] ∧ Link lm g s1.nodes p c := by
    intro hce hcs
    obtain ⟨p, hpm, hl⟩ := hp.openParent c (List.mem_of_mem_erase hce) hne
    exact ⟨p, List.mem_append_left _ hpm,
      hl.congr (hsame p (List.mem_append_left _ hpm)) hcs⟩
  have hc1 : c ∈ (expand lm g targetnode node (s.closedSet ++ [node])
      (s.openSet.erase node, s.nodes)).1 := by rw [← hop]; exact hc
  by_cases hnb : c ∈ g.GetNeighbours node
  · by_cases hskip : g.walkable c = false ∨ c ∈ s.closedSet ++ [node]
    · obtain ⟨f1, f2⟩ := foldl_relax_unwalkable lm g targetnode node _
        (g.GetNeighbours node) (s.openSet.erase node, s.nodes) c hskip
      exact hold (f2.1 hc1) (by rw [hno]; exact f1)
    · have hw : g.walkable c = true := by
        cases hwx : g.walkable c with
        | false => exact absurd (Or.inl hwx) hskip
        | true => rfl
      have hncl : c ∉ s.closedSet ++ [node] := fun hx => hskip (Or.inr hx)
      by_cases hcond : (s.nodes node).gCost + GetDistance lm g node c < (s.nodes c).gCost
          ∨ c ∉ s.openSet.erase node
      · obtain ⟨f1, _⟩ := foldl_relax_updated lm g targetnode node _ hnode
          (g.GetNeighbours node) (s.openSet.erase node, s.nodes) c hnb hw hncl hcond
        refine ⟨node, hnode, ?_⟩
        have hc2 : s1.nodes c = ⟨(s.nodes node).gCost + GetDistance lm g node c,
            GetDistance lm g c targetnode, g.gridX node, g.gridY node⟩ := by
          rw [hno]; exact f1
        unfold Link
        rw [hc2, hsame node hnode]
        exact ⟨rfl, rfl, ⟨hnb, hw⟩, rfl⟩
      · have hin : c ∈ s.openSet.erase node := by
          by_contra hcon
          exact hcond (Or.inr hcon)
        obtain ⟨f1, _⟩ := foldl_relax_settled lm g targetnode node _ hnode
          (g.GetNeighbours node) (s.openSet.erase node, s.nodes) c hw hncl hin
          (fun hlt => hcond (Or.inl hlt))
        exact hold hin (by rw [hno]; exact f1)
  · obtain ⟨f1, f2⟩ := foldl_relax_absent lm g targetnode node (s.closedSet ++ [node])
      (g.GetNeighbours node) (s.openSet.erase node, s.nodes) c hnb
    exact hold (f2.1 hc1) (by rw [hno]; exact f1)

theorem loopState_parentInv {n : Nat} (lm : Libm) (g : Grid n) (nodes : Fin n → Scratch)
    (startNode targetnode : Fin n) (k : Nat) (s : SearchState n)
    (h : loopState lm g targetnode (initState nodes startNode) k = some s) :
    ParentInv lm g startNode nodes s := by
  induction k generalizing s with
  | zero =>
    simp only [loopState, Option.some.injEq] at h
    rw [← h]
    exact ParentInv.initial lm g nodes startNode
  | succ k ih =>
    obtain ⟨s0, h0, hit⟩ := loopState_succ h
    exact (ih s0 h0).step hit

theorem chain_snoc {α : Type} {R : α → α → Prop} (l : List α) (a p c : α)
    (h : List.Chain R a l) (hl : (a :: l).getLast? = some p) (hr : R p c) :
    List.Chain R a (l ++ [c]) := by
  induction l generalizing a with
  | nil =>
    simp only [List.getLast?_singleton, Option.some.injEq] at hl
    subst hl
    exact List.Chain.cons hr List.Chain.nil
  | cons b rest ih =>
    rw [List.getLast?_cons_cons] at hl
    rw [List.chain_cons] at h
    exact List.Chain.cons h.1 (ih b h.2 hl)

theorem chain_snoc_inv {α : Type} {R : α → α → Prop} (l : List α) (a c : α)
    (h : List.Chain R a (l ++ [c])) :
    List.Chain R a l ∧ ∃ p, (a :: l).getLast? = some p ∧ R p c := by
  induction l generalizing a with
  | nil =>
    simp only [List.nil_append, List.chain_cons] at h
    exact ⟨List.Chain.nil, a, rfl, h.1⟩
  | cons b rest ih =>
    simp only [List.cons_append, List.chain_cons] at h
    obtain ⟨i1, p, i2, i3⟩ := ih b h.2
    exact ⟨List.Chain.cons h.1 i1, p, by rw [List.getLast?_cons_cons]; exact i2, i3⟩

theorem chainCost_link {n : Nat} (lm : Libm) (g : Grid n) (nodes : Fin n → Scratch)
    (chain : List (Fin n)) (a c : Fin n) (h : List.Chain (Link lm g nodes) a chain)
    (hl : (a :: chain).getLast? = some c) :
    (nodes c).gCost = (nodes a).gCost + chainCost lm g (a :: chain) := by
  induction chain generalizing a with
  | nil =>
    simp only [List.getLast?_singleton, Option.some.injEq] at hl
    subst hl
    simp [chainCost]
  | cons b rest ih =>
    rw [List.getLast?_cons_cons] at hl
    rw [List.chain_cons] at h
    rw [ih b h.2 hl, h.1.2.2.2, chainCost]
    ring

theorem closed_chain {n : Nat} (lm : Libm) (g : Grid n) (startNode : Fin n)
    (nodes : Fin n → Scratch) (closedSet : List (Fin n))
    (hcp : ∀ l1 c l2, closedSet = l1 ++ c :: l2 → c ≠ startNode →
      ∃ p, p ∈ l1 ∧ Link lm g nodes p c)
    (k : Nat) (l1 : List (Fin n)) (c : Fin n) (l2 : List (Fin n))
    (hsplit : closedSet = l1 ++ c :: l2) (hk : l1.length ≤ k) :
    ∃ chain, List.Chain (Link lm g nodes) startNode chain
      ∧ (startNode :: chain).getLast? = some c
      ∧ (∀ x, x ∈ chain → x ≠ startNode ∧ x ∈ closedSet)
      ∧ chain.length ≤ l1.length := by
  induction k generalizing l1 c l2 with
  | zero =>
    by_cases hc : c = startNode
    · exact ⟨[], List.Chain.nil, by rw [hc]; rfl, fun x hx => absurd hx (List.not_mem_nil x),
        Nat.zero_le _⟩
    · obtain ⟨p, hp, _⟩ := hcp l1 c l2 hsplit hc
      have : l1 = [] := List.length_eq_zero.1 (Nat.le_zero.1 hk)
      rw [this] at hp
      exact absurd hp (List.not_mem_nil p)
  | succ k ih =>
    by_cases hc : c = startNode
    · exact ⟨[], List.Chain.nil, by rw [hc]; rfl, fun x hx => absurd hx (List.not_mem_nil x),
        Nat.zero_le _⟩
    · obtain ⟨p, hp, hl⟩ := hcp l1 c l2 hsplit hc
      obtain ⟨a, b, hab⟩ := List.append_of_mem hp
      have hsplit1 : closedSet = a ++ p :: (b ++ c :: l2) := by
        rw [hsplit, hab]; simp
      have hlen : l1.length = a.length + 1 + b.length := by
        rw [hab]; simp; omega
      obtain ⟨chain, i1, i2, i3, i4⟩ := ih a p (b ++ c :: l2) hsplit1 (by omega)
      refine ⟨chain ++ [c], chain_snoc chain startNode p c i1 i2 hl, ?_, ?_, ?_⟩
      · rw [← List.cons_append, List.getLast?_concat]
      · intro x hx
        rcases List.mem_append.1 hx with hx | hx
        · exact i3 x hx
        · rw [List.mem_singleton.1 hx]
          exact ⟨hc, by rw [hsplit]; simp⟩
      · rw [List.length_append, List.length_singleton]
        omega

theorem retraceWalk_chain {n : Nat} (lm : Libm) (g : Grid n) (hidx : IndexConsistent g)
    (nodes : Fin n → Scratch) (startNode : Fin n) (chain : List (Fin n)) (c : Fin n)
    (fuel : Nat) (acc : List Vector3)
    (h : List.Chain (Link lm g nodes) startNode chain)
    (hl : (startNode :: chain).getLast? = some c)
    (hne : ∀ x, x ∈ chain → x ≠ startNode) (hfuel : chain.length < fuel) :
    retraceWalk g nodes startNode fuel c acc
      = Except.ok (acc ++ (chain.reverse.map g.worldPosition)) := by
  induction chain using List.reverseRecOn generalizing c fuel acc with
  | nil =>
    simp only [List.getLast?_singleton, Option.some.injEq] at hl
    subst hl
    cases fuel with
    | zero => simp at hfuel
    | succ fuel => simp [retraceWalk]
  | append_singleton init d ih =>
    rw [← List.cons_append, List.getLast?_concat, Option.some.injEq] at hl
    subst hl
    obtain ⟨h1, p, h2, h3⟩ := chain_snoc_inv init startNode d h
    have hd : d ≠ startNode := hne d (by simp)
    cases fuel with
    | zero => simp at hfuel
    | succ fuel =>
      rw [retraceWalk, if_neg hd, h3.1, h3.2.1, hidx p]
      simp only
      rw [ih p fuel _ h1 h2 (fun x hx => hne x (List.mem_append_left _ hx))
        (by simp only [List.length_append, List.length_singleton] at hfuel; omega)]
      simp

theorem iteration_reached_eq {n : Nat} {lm : Libm} {g : Grid n} {targetnode : Fin n}
    {s s1 : SearchState n} (h : iteration lm g targetnode s = Step.reached s1) :
    targetnode ∈ s.openSet ∧ s1.openSet = s.openSet.erase targetnode
      ∧ s1.closedSet = s.closedSet ++ [targetnode] ∧ s1.nodes = s.nodes := by
  cases hs : s.openSet with
  | nil => rw [iteration_nil lm g targetnode s hs] at h; cases h
  | cons first rest =>
    have hmem := selectNode_mem_open s first rest hs
    rw [iteration_cons lm g targetnode s first rest hs] at h
    rw [hs] at hmem h
    generalize selectNode s.nodes first (first :: rest) = node at h hmem
    by_cases hnt : node = targetnode
    · rw [if_pos hnt] at h
      injection h with h
      subst h
      subst hnt
      exact ⟨hmem, rfl, rfl, rfl⟩
    · rw [if_neg hnt] at h; cases h

theorem ParentInv.atGoal {n : Nat} {lm : Libm} {g : Grid n} {startNode targetnode : Fin n}
    {nodes0 : Fin n → Scratch} {s s1 : SearchState n}
    (hp : ParentInv lm g startNode nodes0 s)
    (h : iteration lm g targetnode s = Step.reached s1) :
    ParentInv lm g startNode nodes0 s1 := by
  obtain ⟨hmem, hop, hcl, hno⟩ := iteration_reached_eq h
  obtain ⟨k1, k2, k3⟩ := hp.snoc targetnode hmem s1.nodes (fun c _ => by rw [hno])
  refine ⟨Or.inl (by rw [hcl]; exact k1), k2, ?_, by rw [hcl]; exact k3⟩
  intro c hc hne
  rw [hop] at hc
  obtain ⟨p, hpm, hl⟩ := hp.openParent c (List.mem_of_mem_erase hc) hne
  exact ⟨p, by rw [hcl]; exact List.mem_append_left _ hpm, by rw [hno]; exact hl⟩

theorem searchLoop_true_state {n : Nat} (lm : Libm) (g : Grid n) (nodes : Fin n → Scratch)
    (startNode targetnode : Fin n) (st : SearchState n)
    (hs : searchLoop lm g targetnode (n + 1) (initState nodes startNode)
      = Except.ok (true, st)) :
    ParentInv lm g startNode nodes st
      ∧ ∃ l1, st.closedSet = l1 ++ [targetnode] ∧ l1.length + 1 ≤ n := by
  obtain ⟨j, s2, s1, b, hj, hrun, hcase⟩ := searchLoop_exit lm g nodes startNode targetnode
    (n + 1) 0 (initState nodes startNode) rfl (by omega)
  rw [hs] at hrun
  simp only [Except.ok.injEq, Prod.mk.injEq] at hrun
  obtain ⟨hb, hst⟩ := hrun
  subst hb hst
  rcases hcase with ⟨hb, _, _⟩ | ⟨_, hit, hle⟩
  · cases hb
  · have hp := (loopState_parentInv lm g nodes startNode targetnode j s2 hj).atGoal hit
    obtain ⟨_, _, hcl, _⟩ := iteration_reached_eq hit
    refine ⟨hp, s2.closedSet, hcl, ?_⟩
    rw [loopState_closed_length lm g nodes startNode targetnode j s2 hj]
    exact hle

theorem retrace_after_search {n : Nat} (lm : Libm) (g : Grid n) (hidx : IndexConsistent g)
    (nodes : Fin n → Scratch) (startNode targetnode : Fin n) (st : SearchState n)
    (hs : searchLoop lm g targetnode (n + 1) (initState nodes startNode)
      = Except.ok (true, st)) :
    ∃ chain, retraceWalk g st.nodes startNode (n + 1) targetnode []
        = Except.ok (chain.reverse.map g.worldPosition)
      ∧ List.Chain (Link lm g st.nodes) startNode chain
      ∧ (startNode :: chain).getLast? = some targetnode
      ∧ chain.length + 1 ≤ n := by
  obtain ⟨hp, l1, hcl, hlen⟩ := searchLoop_true_state lm g nodes startNode targetnode st hs
  obtain ⟨chain, c1, c2, c3, c4⟩ := closed_chain lm g startNode st.nodes st.closedSet
    hp.closedParent l1.length l1 targetnode [] hcl (le_refl _)
  refine ⟨chain, ?_, c1, c2, by omega⟩
  have := retraceWalk_chain lm g hidx st.nodes startNode chain targetnode (n + 1) [] c1 c2
    (fun x hx => (c3 x hx).1) (by omega)
  simpa using this

/-- C17: on a grid that finds every cell again under its own indices, after every search
that reached the goal the backward walk of `RetracePath` arrives at the start cell within
its `n + 1` loop tests, having pushed fewer points than the grid has cells; and the parent
indices of every discovered cell other than the start resolve to a cell of the closed
set which, when the cell is itself closed, stands before it in the closed set. -/
theorem retrace_reaches_start {n : Nat} (lm : Libm) (g : Grid n) (hidx : IndexConsistent g)
    (nodes : Fin n → Scratch) (startNode targetnode : Fin n) (st : SearchState n)
    (hs : searchLoop lm g targetnode (n + 1) (initState nodes startNode)
      = Except.ok (true, st)) :
    (∃ path, retraceWalk g st.nodes startNode (n + 1) targetnode [] = Except.ok path
        ∧ path.length + 1 ≤ n)
      ∧ ∀ c, (c ∈ st.openSet ∨ c ∈ st.closedSet) → c ≠ startNode →
          ∃ p, g.NodeFromIndex (st.nodes c).parentX (st.nodes c).parentY = some p
            ∧ p ∈ st.closedSet
            ∧ ∀ l1 l2, st.closedSet = l1 ++ c :: l2 → p ∈ l1 := by
  obtain ⟨chain, h1, _, _, h4⟩ := retrace_after_search lm g hidx nodes startNode targetnode st hs
  obtain ⟨hp, _, _, _⟩ := searchLoop_true_state lm g nodes startNode targetnode st hs
  refine ⟨⟨_, h1, by simpa using h4⟩, ?_⟩
  intro c hc hne
  have hearlier : ∀ p, g.NodeFromIndex (st.nodes c).parentX (st.nodes c).parentY = some p →
      ∀ l1 l2, st.closedSet = l1 ++ c :: l2 → p ∈ l1 := by
    intro p hpn l1 l2 hsplit
    obtain ⟨q, hq, hl⟩ := hp.closedParent l1 c l2 hsplit hne
    rw [hl.1, hl.2.1, hidx q, Option.some.injEq] at hpn
    rw [← hpn]
    exact hq
  rcases hc with hc | hc
  · obtain ⟨p, hpm, hl⟩ := hp.openParent c hc hne
    have hpn : g.NodeFromIndex (st.nodes c).parentX (st.nodes c).parentY = some p := by
      rw [hl.1, hl.2.1, hidx p]
    exact ⟨p, hpn, hpm, hearlier p hpn⟩
  · obtain ⟨a, b, hab⟩ := List.append_of_mem hc
    obtain ⟨p, hpm, hl⟩ := hp.closedParent a c b hab hne
    have hpn : g.NodeFromIndex (st.nodes c).parentX (st.nodes c).parentY = some p := by
      rw [hl.1, hl.2.1, hidx p]
    exact ⟨p, hpn, by rw [hab]; exact List.mem_append_left _ hpm, hearlier p hpn⟩

/-- C19: on a grid that finds every cell again under its own indices, after every search
that reached the goal the sequence reconstructed by `RetracePath` is the list of world
positions of cells `c1, ..., ck`, with `ck` the goal when the goal is not the start, in
which `c1` is a walkable cell reported by `GetNeighbours` for the start cell and every
further cell is a walkable cell reported by `GetNeighbours` for the cell before it. -/
theorem path_walkable_steps {n : Nat} (lm : Libm) (g : Grid n) (hidx : IndexConsistent g)
    (nodes : Fin n → Scratch) (startNode targetnode : Fin n) (st : SearchState n)
    (hs : searchLoop lm g targetnode (n + 1) (initState nodes startNode)
      = Except.ok (true, st)) :
    ∃ cells, reconstruct g st.nodes startNode targetnode
        = Except.ok (cells.map g.worldPosition)
      ∧ List.Chain (WalkStep g) startNode cells
      ∧ (startNode :: cells).getLast? = some targetnode := by
  obtain ⟨chain, h1, h2, h3, _⟩ := retrace_after_search lm g hidx nodes startNode targetnode
    st hs
  refine ⟨chain, ?_, List.Chain.imp (fun a b hl => hl.2.2.1) h2, h3⟩
  rw [reconstruct, h1]
  simp [Except.map]

theorem lattice_indexConsistent (w h : Nat) (cells : List (Int × Int)) :
    IndexConsistent (lattice w h cells) := by
  intro c
  obtain ⟨v, hv⟩ := c
  have hh : 0 < h := by
    rcases Nat.eq_zero_or_pos h with h0 | h0
    · subst h0; simp at hv
    · exact h0
  have h1 : v / h < w := Nat.div_lt_of_lt_mul (by rw [Nat.mul_comm]; exact hv)
  have h2 : v % h < h := Nat.mod_lt _ hh
  have h3 : v / h * h + v % h = v := Nat.div_add_mod' _ _
  have hk : ((v / h : Nat) : Int).toNat * h + ((v % h : Nat) : Int).toNat < w * h := by
    simp only [Int.toNat_ofNat]
    rw [h3]
    exact hv
  have hcond : (0 : Int) ≤ ((v / h : Nat) : Int) ∧ ((v / h : Nat) : Int) < (w : Int)
      ∧ (0 : Int) ≤ ((v % h : Nat) : Int) ∧ ((v % h : Nat) : Int) < (h : Int) :=
    ⟨Int.ofNat_nonneg _, by exact_mod_cast h1, Int.ofNat_nonneg _, by exact_mod_cast h2⟩
  show latticeIndex w h ((v / h : Nat) : Int) ((v % h : Nat) : Int) = some ⟨v, hv⟩
  unfold latticeIndex
  rw [if_pos hcond, dif_pos hk]
  congr 1
  apply Fin.ext
  simp only [Int.toNat_ofNat]
  exact h3

theorem searchLoop_true_exists {n : Nat} (x : Except Fault (Bool × SearchState n))
    (h : x.map Prod.fst = Except.ok true) : ∃ st, x = Except.ok (true, st) := by
  cases x with
  | error e => cases h
  | ok bs =>
    obtain ⟨b, st⟩ := bs
    simp only [Except.map, Except.ok.injEq] at h
    subst h
    exact ⟨st, rfl⟩

theorem retrace_reaches_start_witness :
    IndexConsistent grid54
      ∧ ∃ st, searchLoop libmQ grid54 (cell54 4 2) (5 * 4 + 1)
            (initState (scratch0 _) (cell54 0 0)) = Except.ok (true, st)
        ∧ (∃ path, retraceWalk grid54 st.nodes (cell54 0 0) (5 * 4 + 1) (cell54 4 2) []
              = Except.ok path ∧ path.length + 1 ≤ 5 * 4)
        ∧ ∀ c, (c ∈ st.openSet ∨ c ∈ st.closedSet) → c ≠ cell54 0 0 →
            ∃ p, grid54.NodeFromIndex (st.nodes c).parentX (st.nodes c).parentY = some p
              ∧ p ∈ st.closedSet
              ∧ ∀ l1 l2, st.closedSet = l1 ++ c :: l2 → p ∈ l1 := by
  obtain ⟨st, hst⟩ := searchLoop_true_exists
    (searchLoop libmQ grid54 (cell54 4 2) (5 * 4 + 1) (initState (scratch0 _) (cell54 0 0)))
    (by decide!)
  exact ⟨lattice_indexConsistent 5 4 _, st, hst,
    retrace_reaches_start libmQ grid54 (lattice_indexConsistent 5 4 _) (scratch0 _)
      (cell54 0 0) (cell54 4 2) st hst⟩

theorem path_walkable_steps_witness :
    IndexConsistent grid54
      ∧ ∃ st, searchLoop libmQ grid54 (cell54 4 2) (5 * 4 + 1)
            (initState (scratch0 _) (cell54 0 0)) = Except.ok (true, st)
        ∧ ∃ cells, reconstruct grid54 st.nodes (cell54 0 0) (cell54 4 2)
              = Except.ok (cells.map grid54.worldPosition)
          ∧ List.Chain (WalkStep grid54) (cell54 0 0) cells
          ∧ (cell54 0 0 :: cells).getLast? = some (cell54 4 2) := by
  obtain ⟨st, hst⟩ := searchLoop_true_exists
    (searchLoop libmQ grid54 (cell54 4 2) (5 * 4 + 1) (initState (scratch0 _) (cell54 0 0)))
    (by decide!)
  exact ⟨lattice_indexConsistent 5 4 _, st, hst,
    path_walkable_steps libmQ grid54 (lattice_indexConsistent 5 4 _) (scratch0 _)
      (cell54 0 0) (cell54 4 2) st hst⟩

/-! ## The cost recorded in `gCost` -/

/-- C16 as stated fails: a first search on `grid31` from `(0,0)` to `(2,0)` leaves
`gCost = 2` on the cell `(2,0)`; in a second search from `(2,0)` to `(0,0)` the start cell
`(2,0)` is in the open set with `gCost = 2`, not `0`, at the first loop test, and at the
second loop test the open cell `(1,0)`, whose parent is the start cell at distance `1`,
has `gCost = 3`. -/
theorem gCost_not_path_cost :
    (stale31 2).gCost = 2
      ∧ (loopState libmQ grid31 0 (initState stale31 2) 0).map
          (fun s => (s.openSet, (s.nodes 2).gCost)) = some ([2], 2)
      ∧ (loopState libmQ grid31 0 (initState stale31 2) 1).map
          (fun s => (s.openSet, (s.nodes 1).gCost, (s.nodes 1).parentX, (s.nodes 1).parentY))
          = some ([1], 3, grid31.gridX 2, grid31.gridY 2)
      ∧ chainCost libmQ grid31 [2, 1] = 1 :=
  ⟨by decide!, by decide!, by decide!, by decide!⟩

/-- C16, amended: at the head of every iteration of the `FindPath` loop, for every
initial value of the scratch fields, the start cell still has the `gCost` it had before
the call, and every cell of the open or closed set is the end of a chain of cells that
begins at the start cell, in which each cell has the indices of the one before it as
parent indices and is a walkable neighbour of it, and whose cost added to the `gCost` of
the start cell is the `gCost` of the cell. -/
theorem gCost_is_start_plus_chain {n : Nat} (lm : Libm) (g : Grid n)
    (nodes : Fin n → Scratch) (startNode targetnode : Fin n) (k : Nat) (s : SearchState n)
    (h : loopState lm g targetnode (initState nodes startNode) k = some s) :
    (s.nodes startNode).gCost = (nodes startNode).gCost
      ∧ ∀ c, (c ∈ s.openSet ∨ c ∈ s.closedSet) →
          ∃ chain, List.Chain (Link lm g s.nodes) startNode chain
            ∧ (startNode :: chain).getLast? = some c
            ∧ (s.nodes c).gCost = (nodes startNode).gCost + chainCost lm g (startNode :: chain) := by
  have hp := loopState_parentInv lm g nodes startNode targetnode k s h
  refine ⟨by rw [hp.startScratch], ?_⟩
  have hclosed : ∀ c, c ∈ s.closedSet → ∃ chain, List.Chain (Link lm g s.nodes) startNode chain
      ∧ (startNode :: chain).getLast? = some c := by
    intro c hc
    obtain ⟨a, b, hab⟩ := List.append_of_mem hc
    obtain ⟨chain, c1, c2, _, _⟩ := closed_chain lm g startNode s.nodes s.closedSet
      hp.closedParent a.length a c b hab (le_refl _)
    exact ⟨chain, c1, c2⟩
  have hall : ∀ c, (c ∈ s.openSet ∨ c ∈ s.closedSet) →
      ∃ chain, List.Chain (Link lm g s.nodes) startNode chain
        ∧ (startNode :: chain).getLast? = some c := by
    intro c hc
    rcases hc with hc | hc
    · by_cases hne : c = startNode
      · exact ⟨[], List.Chain.nil, by rw [hne]; rfl⟩
      · obtain ⟨p, hpm, hl⟩ := hp.openParent c hc hne
        obtain ⟨chain, c1, c2⟩ := hclosed p hpm
        exact ⟨chain ++ [c], chain_snoc chain startNode p c c1 c2 hl,
          by rw [← List.cons_append, List.getLast?_concat]⟩
    · exact hclosed c hc
  intro c hc
  obtain ⟨chain, c1, c2⟩ := hall c hc
  refine ⟨chain, c1, c2, ?_⟩
  rw [chainCost_link lm g s.nodes chain startNode c c1 c2, hp.startScratch]

theorem gCost_is_start_plus_chain_witness :
    ∃ s, loopState libmQ grid31 0 (initState stale31 2) 1 = some s
      ∧ (s.nodes 2).gCost = (stale31 2).gCost
      ∧ ∀ c, (c ∈ s.openSet ∨ c ∈ s.closedSet) →
          ∃ chain, List.Chain (Link libmQ grid31 s.nodes) 2 chain
            ∧ ((2 : Fin (3 * 1)) :: chain).getLast? = some c
            ∧ (s.nodes c).gCost = (stale31 2).gCost + chainCost libmQ grid31 (2 :: chain) := by
  have hsome : (loopState libmQ grid31 0 (initState stale31 2) 1).isSome = true := by decide!
  obtain ⟨s, hs⟩ := Option.isSome_iff_exists.1 hsome
  exact ⟨s, hs, gCost_is_start_plus_chain libmQ grid31 stale31 2 0 1 s hs⟩

/-! ## Independence of the scratch fields left by an earlier search -/

theorem selectStep_sim {n : Nat} (nodes1 nodes2 : Fin n → Scratch) (delta : ℚ)
    (node it : Fin n)
    (hn : (nodes2 node).gCost = (nodes1 node).gCost + delta
      ∧ (nodes2 node).hCost = (nodes1 node).hCost)
    (hi : (nodes2 it).gCost = (nodes1 it).gCost + delta
      ∧ (nodes2 it).hCost = (nodes1 it).hCost) :
    selectStep nodes2 node it = selectStep nodes1 node it := by
  have hf : (fCost (nodes2 it) < fCost (nodes2 node) ∨ fCost (nodes2 it) = fCost (nodes2 node))
      ↔ (fCost (nodes1 it) < fCost (nodes1 node) ∨ fCost (nodes1 it) = fCost (nodes1 node)) := by
    unfold fCost
    rw [hn.1, hn.2, hi.1, hi.2]
    constructor
    · rintro (h | h)
      · left; linarith
      · right; linarith
    · rintro (h | h)
      · left; linarith
      · right; linarith
  unfold selectStep
  rw [hn.2, hi.2]
  by_cases h1 : fCost (nodes1 it) < fCost (nodes1 node) ∨ fCost (nodes1 it) = fCost (nodes1 node)
  · rw [if_pos h1, if_pos (hf.2 h1)]
  · rw [if_neg h1, if_neg (fun h => h1 (hf.1 h))]

theorem foldl_selectStep_sim {n : Nat} (nodes1 nodes2 : Fin n → Scratch) (delta : ℚ)
    (l : List (Fin n)) (node : Fin n)
    (h : ∀ c, c ∈ node :: l → (nodes2 c).gCost = (nodes1 c).gCost + delta
      ∧ (nodes2 c).hCost = (nodes1 c).hCost) :
    l.foldl (selectStep nodes2) node = l.foldl (selectStep nodes1) node := by
  induction l generalizing node with
  | nil => rfl
  | cons it rest ih =>
    simp only [List.foldl_cons]
    rw [selectStep_sim nodes1 nodes2 delta node it (h node (List.mem_cons_self _ _))
      (h it (List.mem_cons_of_mem _ (List.mem_cons_self _ _)))]
    apply ih
    intro c hc
    rcases List.mem_cons.1 hc with hc | hc
    · rw [hc]
      rcases selectStep_eq nodes1 node it with h1 | h1
      · rw [h1]; exact h node (List.mem_cons_self _ _)
      · rw [h1]; exact h it (List.mem_cons_of_mem _ (List.mem_cons_self _ _))
    · exact h c (List.mem_cons_of_mem _ (List.mem_cons_of_mem _ hc))

theorem selectNode_sim {n : Nat} {startNode : Fin n} {delta : ℚ} {s1 s2 : SearchState n}
    (hsim : Sim startNode delta s1 s2)
    (hstart : startNode ∈ s1.closedSet ∨ (s1.openSet = [startNode] ∧ s1.closedSet = []))
    (hdisj : ∀ c, c ∈ s1.openSet → c ∉ s1.closedSet) (first : Fin n) (rest : List (Fin n))
    (hs : s1.openSet = first :: rest) :
    selectNode s2.nodes first s2.openSet = selectNode s1.nodes first s1.openSet := by
  rw [hsim.openEq]
  rcases hstart with h | ⟨h, _⟩
  · unfold selectNode
    rw [hs]
    have hall : ∀ c, c ∈ first :: rest → (s2.nodes c).gCost = (s1.nodes c).gCost + delta
        ∧ (s2.nodes c).hCost = (s1.nodes c).hCost := by
      intro c hc
      have hco : c ∈ s1.openSet := by rw [hs]; exact hc
      have hne : c ≠ startNode := fun he => hdisj c hco (he ▸ h)
      exact ⟨hsim.gShift c (Or.inl hco), (hsim.others c (Or.inl hco) hne).1⟩
    have h0 := foldl_selectStep_sim s1.nodes s2.nodes delta (first :: rest) first
      (fun c hc => by
        rcases List.mem_cons.1 hc with hc | hc
        · rw [hc]; exact hall first (List.mem_cons_self _ _)
        · exact hall c hc)
    exact h0
  · rw [h] at hs
    injection hs with h1 h2
    subst h1 h2
    rw [h]
    simp [selectNode, selectStep]

theorem relax_sim {n : Nat} (lm : Libm) (g : Grid n) (startNode targetnode node : Fin n)
    (closedSet : List (Fin n)) (hnode : node ∈ closedSet)
    (delta : ℚ) (st1 st2 : List (Fin n) × (Fin n → Scratch)) (it : Fin n)
    (ho : st2.1 = st1.1)
    (hg : ∀ c, (c ∈ st1.1 ∨ c ∈ closedSet) → (st2.2 c).gCost = (st1.2 c).gCost + delta)
    (hr : ∀ c, (c ∈ st1.1 ∨ c ∈ closedSet) → c ≠ startNode →
      (st2.2 c).hCost = (st1.2 c).hCost ∧ (st2.2 c).parentX = (st1.2 c).parentX
        ∧ (st2.2 c).parentY = (st1.2 c).parentY) :
    (relax lm g targetnode node closedSet st2 it).1
        = (relax lm g targetnode node closedSet st1 it).1
      ∧ (∀ c, (c ∈ (relax lm g targetnode node closedSet st1 it).1 ∨ c ∈ closedSet) →
          ((relax lm g targetnode node closedSet st2 it).2 c).gCost
            = ((relax lm g targetnode node closedSet st1 it).2 c).gCost + delta)
      ∧ ∀ c, (c ∈ (relax lm g targetnode node closedSet st1 it).1 ∨ c ∈ closedSet) →
          c ≠ startNode →
          ((relax lm g targetnode node closedSet st2 it).2 c).hCost
              = ((relax lm g targetnode node closedSet st1 it).2 c).hCost
            ∧ ((relax lm g targetnode node closedSet st2 it).2 c).parentX
              = ((relax lm g targetnode node closedSet st1 it).2 c).parentX
            ∧ ((relax lm g targetnode node closedSet st2 it).2 c).parentY
              = ((relax lm g targetnode node closedSet st1 it).2 c).parentY := by
  by_cases hskip : g.walkable it = false ∨ it ∈ closedSet
  · rw [relax_skip lm g targetnode node closedSet st1 it hskip,
      relax_skip lm g targetnode node closedSet st2 it hskip]
    exact ⟨ho, hg, hr⟩
  · have hw : g.walkable it = true := by
      cases hwx : g.walkable it with
      | false => exact absurd (Or.inl hwx) hskip
      | true => rfl
    have hcl : it ∉ closedSet := fun h => hskip (Or.inr h)
    have hcond : ((st2.2 node).gCost + GetDistance lm g node it < (st2.2 it).gCost
          ∨ it ∉ st2.1)
        ↔ ((st1.2 node).gCost + GetDistance lm g node it < (st1.2 it).gCost ∨ it ∉ st1.1) := by
      rw [ho]
      by_cases hop : it ∈ st1.1
      · rw [hg node (Or.inr hnode), hg it (Or.inl hop)]
        constructor
        · rintro (h | h)
          · left; linarith
          · exact absurd hop h
        · rintro (h | h)
          · left; linarith
          · exact absurd hop h
      · exact ⟨fun _ => Or.inr hop, fun _ => Or.inr hop⟩
    by_cases hc : (st1.2 node).gCost + GetDistance lm g node it < (st1.2 it).gCost ∨ it ∉ st1.1
    · rw [relax_update lm g targetnode node closedSet st1 it hw hcl hc,
        relax_update lm g targetnode node closedSet st2 it hw hcl (hcond.2 hc), ho]
      refine ⟨rfl, ?_, ?_⟩
      · intro c hcm
        by_cases hci : c = it
        · subst hci
          simp only [Function.update_same]
          rw [hg node (Or.inr hnode)]
          ring
        · simp only [Function.update_noteq hci]
          apply hg
          rcases hcm with hcm | hcm
          · left
            by_cases hop : it ∈ st1.1
            · simpa [hop] using hcm
            · simpa [hop, hci] using hcm
          · exact Or.inr hcm
      · intro c hcm hne
        by_cases hci : c = it
        · subst hci
          simp only [Function.update_same]
          exact ⟨trivial, trivial, trivial⟩
        · simp only [Function.update_noteq hci]
          apply hr _ _ hne
          rcases hcm with hcm | hcm
          · left
            by_cases hop : it ∈ st1.1
            · simpa [hop] using hcm
            · simpa [hop, hci] using hcm
          · exact Or.inr hcm
    · have hop : it ∈ st1.1 := by
        by_contra h
        exact hc (Or.inr h)
      rw [relax_keep lm g targetnode node closedSet st1 it hw hcl hop (fun h => hc (Or.inl h)),
        relax_keep lm g targetnode node closedSet st2 it hw hcl (by rw [ho]; exact hop)
          (fun h => hc (hcond.1 (Or.inl h)))]
      exact ⟨ho, hg, hr⟩

theorem foldl_relax_sim {n : Nat} (lm : Libm) (g : Grid n) (startNode targetnode node : Fin n)
    (closedSet : List (Fin n)) (hnode : node ∈ closedSet)
    (delta : ℚ) (l : List (Fin n)) (st1 st2 : List (Fin n) × (Fin n → Scratch))
    (ho : st2.1 = st1.1)
    (hg : ∀ c, (c ∈ st1.1 ∨ c ∈ closedSet) → (st2.2 c).gCost = (st1.2 c).gCost + delta)
    (hr : ∀ c, (c ∈ st1.1 ∨ c ∈ closedSet) → c ≠ startNode →
      (st2.2 c).hCost = (st1.2 c).hCost ∧ (st2.2 c).parentX = (st1.2 c).parentX
        ∧ (st2.2 c).parentY = (st1.2 c).parentY) :
    (l.foldl (relax lm g targetnode node closedSet) st2).1
        = (l.foldl (relax lm g targetnode node closedSet) st1).1
      ∧ (∀ c, (c ∈ (l.foldl (relax lm g targetnode node closedSet) st1).1 ∨ c ∈ closedSet) →
          ((l.foldl (relax lm g targetnode node closedSet) st2).2 c).gCost
            = ((l.foldl (relax lm g targetnode node closedSet) st1).2 c).gCost + delta)
      ∧ ∀ c, (c ∈ (l.foldl (relax lm g targetnode node closedSet) st1).1 ∨ c ∈ closedSet) →
          c ≠ startNode →
          ((l.foldl (relax lm g targetnode node closedSet) st2).2 c).hCost
              = ((l.foldl (relax lm g targetnode node closedSet) st1).2 c).hCost
            ∧ ((l.foldl (relax lm g targetnode node closedSet) st2).2 c).parentX
              = ((l.foldl (relax lm g targetnode node closedSet) st1).2 c).parentX
            ∧ ((l.foldl (relax lm g targetnode node closedSet) st2).2 c).parentY
              = ((l.foldl (relax lm g targetnode node closedSet) st1).2 c).parentY := by
  induction l generalizing st1 st2 with
  | nil => exact ⟨ho, hg, hr⟩
  | cons it rest ih =>
    simp only [List.foldl_cons]
    obtain ⟨k1, k2, k3⟩ := relax_sim lm g startNode targetnode node closedSet hnode
      delta st1 st2 it ho hg hr
    exact ih _ _ k1 k2 k3

theorem Sim.atStart {n : Nat} (nodes1 nodes2 : Fin n → Scratch) (startNode : Fin n) :
    Sim startNode ((nodes2 startNode).gCost - (nodes1 startNode).gCost)
      (initState nodes1 startNode) (initState nodes2 startNode) where
  openEq := rfl
  closedEq := rfl
  gShift := fun c hc => by
    rcases hc with hc | hc
    · rw [List.mem_singleton.1 hc]
      simp [initState]
    · exact absurd hc (List.not_mem_nil c)
  others := fun c hc hne => by
    rcases hc with hc | hc
    · exact absurd (List.mem_singleton.1 hc) hne
    · exact absurd hc (List.not_mem_nil c)

theorem iteration_sim {n : Nat} (lm : Libm) (g : Grid n) (startNode targetnode : Fin n)
    (delta : ℚ) (s1 s2 : SearchState n) (hsim : Sim startNode delta s1 s2)
    (hstart : startNode ∈ s1.closedSet ∨ (s1.openSet = [startNode] ∧ s1.closedSet = []))
    (hdisj : ∀ c, c ∈ s1.openSet → c ∉ s1.closedSet) :
    (iteration lm g targetnode s1 = Step.emptied s1
        ∧ iteration lm g targetnode s2 = Step.emptied s2)
      ∨ (∃ r1 r2, iteration lm g targetnode s1 = Step.reached r1
          ∧ iteration lm g targetnode s2 = Step.reached r2 ∧ Sim startNode delta r1 r2)
      ∨ ∃ r1 r2, iteration lm g targetnode s1 = Step.next r1
          ∧ iteration lm g targetnode s2 = Step.next r2 ∧ Sim startNode delta r1 r2 := by
  cases hs : s1.openSet with
  | nil =>
    left
    exact ⟨iteration_nil lm g targetnode s1 hs,
      iteration_nil lm g targetnode s2 (by rw [hsim.openEq, hs])⟩
  | cons first rest =>
    right
    have hs2 : s2.openSet = first :: rest := by rw [hsim.openEq, hs]
    have hsel := selectNode_sim hsim hstart hdisj first rest hs
    have hmem := selectNode_mem_open s1 first rest hs
    rw [iteration_cons lm g targetnode s1 first rest hs,
      iteration_cons lm g targetnode s2 first rest hs2, hsel, hsim.openEq, hsim.closedEq]
    generalize selectNode s1.nodes first s1.openSet = node at hmem
    have hsub : ∀ c, (c ∈ s1.openSet.erase node ∨ c ∈ s1.closedSet ++ [node]) →
        c ∈ s1.openSet ∨ c ∈ s1.closedSet := by
      intro c hc
      rcases hc with hc | hc
      · exact Or.inl (List.mem_of_mem_erase hc)
      · rcases List.mem_append.1 hc with hc | hc
        · exact Or.inr hc
        · rw [List.mem_singleton.1 hc]; exact Or.inl hmem
    by_cases hnt : node = targetnode
    · left
      rw [if_pos hnt, if_pos hnt]
      exact ⟨_, _, rfl, rfl, ⟨rfl, rfl, fun c hc => hsim.gShift c (hsub c hc),
        fun c hc hne => hsim.others c (hsub c hc) hne⟩⟩
    · right
      rw [if_neg hnt, if_neg hnt]
      obtain ⟨k1, k2, k3⟩ := foldl_relax_sim lm g startNode targetnode node
        (s1.closedSet ++ [node]) (by simp) delta (g.GetNeighbours node)
        (s1.openSet.erase node, s1.nodes) (s1.openSet.erase node, s2.nodes) rfl
        (fun c hc => hsim.gShift c (hsub c hc))
        (fun c hc hne => hsim.others c (hsub c hc) hne)
      exact ⟨_, _, rfl, rfl, ⟨k1, rfl, k2, k3⟩⟩

theorem searchLoop_sim {n : Nat} (lm : Libm) (g : Grid n) (startNode targetnode : Fin n)
    (nodes0 : Fin n → Scratch) (delta : ℚ) (fuel : Nat) (s1 s2 : SearchState n)
    (hsim : Sim startNode delta s1 s2) (hinv : SearchInv g startNode targetnode s1)
    (hp : ParentInv lm g startNode nodes0 s1) :
    (∃ e, searchLoop lm g targetnode fuel s1 = Except.error e
        ∧ searchLoop lm g targetnode fuel s2 = Except.error e)
      ∨ ∃ b r1 r2, searchLoop lm g targetnode fuel s1 = Except.ok (b, r1)
          ∧ searchLoop lm g targetnode fuel s2 = Except.ok (b, r2)
          ∧ Sim startNode delta r1 r2 := by
  induction fuel generalizing s1 s2 with
  | zero => exact Or.inl ⟨Fault.nonTermination, rfl, rfl⟩
  | succ fuel ih =>
    rw [searchLoop, searchLoop]
    rcases iteration_sim lm g startNode targetnode delta s1 s2 hsim hp.startState
      hinv.disjoint with ⟨h1, h2⟩ | ⟨r1, r2, h1, h2, hr⟩ | ⟨r1, r2, h1, h2, hr⟩
    · rw [h1, h2]
      exact Or.inr ⟨false, s1, s2, rfl, rfl, hsim⟩
    · rw [h1, h2]
      exact Or.inr ⟨true, r1, r2, rfl, rfl, hr⟩
    · rw [h1, h2]
      exact ih r1 r2 hr (hinv.next h1).1 (hp.step h1)

theorem chain_imp_mem {α : Type} {R S : α → α → Prop} (l : List α) (a : α)
    (h : List.Chain R a l) (himp : ∀ x y, x ∈ a :: l → y ∈ l → R x y → S x y) :
    List.Chain S a l := by
  induction l generalizing a with
  | nil => exact List.Chain.nil
  | cons b rest ih =>
    rw [List.chain_cons] at h
    refine List.Chain.cons (himp a b (List.mem_cons_self _ _) (List.mem_cons_self _ _) h.1) ?_
    apply ih b h.2
    intro x y hx hy hxy
    exact himp x y (List.mem_cons_of_mem _ hx) (List.mem_cons_of_mem _ hy) hxy

theorem reconstruct_sim {n : Nat} (lm : Libm) (g : Grid n) (hidx : IndexConsistent g)
    (nodes : Fin n → Scratch) (startNode targetnode : Fin n) (delta : ℚ)
    (r1 r2 : SearchState n)
    (hs : searchLoop lm g targetnode (n + 1) (initState nodes startNode)
      = Except.ok (true, r1))
    (hsim : Sim startNode delta r1 r2) :
    reconstruct g r2.nodes startNode targetnode
      = reconstruct g r1.nodes startNode targetnode := by
  obtain ⟨hp, l1, hcl, hlen⟩ := searchLoop_true_state lm g nodes startNode targetnode r1 hs
  obtain ⟨chain, c1, c2, c3, c4⟩ := closed_chain lm g startNode r1.nodes r1.closedSet
    hp.closedParent l1.length l1 targetnode [] hcl (le_refl _)
  have hstart : startNode ∈ r1.closedSet := by
    rcases hp.startState with h | ⟨_, h⟩
    · exact h
    · rw [hcl] at h; simp at h
  have c1' : List.Chain (Link lm g r2.nodes) startNode chain := by
    apply chain_imp_mem chain startNode c1
    intro x y hx hy hl
    have hyc := c3 y hy
    have hxc : x ∈ r1.closedSet := by
      rcases List.mem_cons.1 hx with hx | hx
      · rw [hx]; exact hstart
      · exact (c3 x hx).2
    obtain ⟨_, o2, o3⟩ := hsim.others y (Or.inr hyc.2) hyc.1
    unfold Link at hl ⊢
    rw [o2, o3, hsim.gShift y (Or.inr hyc.2), hsim.gShift x (Or.inr hxc), hl.2.2.2]
    exact ⟨hl.1, hl.2.1, hl.2.2.1, by ring⟩
  have hne : ∀ x, x ∈ chain → x ≠ startNode := fun x hx => (c3 x hx).1
  rw [reconstruct, reconstruct,
    retraceWalk_chain lm g hidx r1.nodes startNode chain targetnode (n + 1) [] c1 c2 hne
      (by omega),
    retraceWalk_chain lm g hidx r2.nodes startNode chain targetnode (n + 1) [] c1' c2 hne
      (by omega)]

/-- C15: on a grid that finds every cell again under its own indices, with exact
arithmetic, two calls of `FindPath` with the same positions and the same `grid.path`
before the call, whose scratch fields differ in any way, end alike: the same fault, or
the same flag, the same reconstructed sequence in `grid.path` and the same waypoints sent
to the local planner. -/
theorem findPath_ignores_stale_scratch {n : Nat} (lm : Libm) (g : Grid n)
    (hidx : IndexConsistent g) (nodes1 nodes2 : Fin n → Scratch) (path0 : List Vector3)
    (startPos targetPos : Vector3) :
    observe (FindPath lm g ⟨nodes1, path0⟩ startPos targetPos)
      = observe (FindPath lm g ⟨nodes2, path0⟩ startPos targetPos) := by
  unfold FindPath
  cases hsn : g.NodeFromWorldPoint startPos with
  | none => rfl
  | some startNode =>
    cases htn : g.NodeFromWorldPoint targetPos with
    | none => rfl
    | some targetnode =>
      simp only
      rcases searchLoop_sim lm g startNode targetnode nodes1 _ (n + 1)
        (initState nodes1 startNode) (initState nodes2 startNode)
        (Sim.atStart nodes1 nodes2 startNode) (SearchInv.init g nodes1 startNode targetnode)
        (ParentInv.initial lm g nodes1 startNode) with ⟨e, h1, h2⟩ | ⟨b, r1, r2, h1, h2, hsim⟩
      · rw [h1, h2]
      · rw [h1, h2]
        cases b with
        | false => rfl
        | true =>
          simp only [RetracePath]
          rw [reconstruct_sim lm g hidx nodes1 startNode targetnode _ r1 r2 h1 hsim]
          cases reconstruct g r1.nodes startNode targetnode with
          | error e => rfl
          | ok path =>
            simp only
            cases simplify lm g path with
            | error e => rfl
            | ok sp => rfl

theorem findPath_ignores_stale_scratch_witness :
    IndexConsistent grid31
      ∧ observe (FindPath libmQ grid31 ⟨scratch0 _, []⟩ ⟨2, 0, 0⟩ ⟨0, 0, 0⟩)
        = observe (FindPath libmQ grid31 ⟨stale31, []⟩ ⟨2, 0, 0⟩ ⟨0, 0, 0⟩) :=
  ⟨lattice_indexConsistent 3 1 _,
    findPath_ignores_stale_scratch libmQ grid31 (lattice_indexConsistent 3 1 _) (scratch0 _)
      stale31 [] ⟨2, 0, 0⟩ ⟨0, 0, 0⟩⟩

/-! ## The search loop inside `FindPath` -/

end NavigationPkg
